import Mathlib

/-!
# Verification of the artificial bee colony optimizer

Shallow embedding of the ABC search in `bees.py` (the `bee_search` driver, the
`Hive` / `Bee` / `Food` data model and the sampling helpers), over exact
rationals with an explicit pseudo-random source threaded through every
sampling operation.  Python food objects are shared by reference between
workers and onlookers, so foods live in a store (`SearchState.store`) indexed
by `Nat` ids, and each agent holds an optional id.  The list iteration of the
worker and scout phases mutates the very lists being iterated in the source;
the loops below reproduce the index-based iterator semantics exactly
(removing the current element shifts the successor under the iterator, which
is therefore skipped).
-/

namespace Bees

/-- fractional part of a rational, `q - ⌊q⌋`, always in `[0, 1)`. -/
def fract (q : ℚ) : ℚ := q - ⌊q⌋

/-- explicit pseudo-random source standing for the module-level
`rng = default_rng()`: one stream of natural draws, one stream of rational
draws, each with a cursor.  Every sampling helper consumes draws from here. -/
structure Rng where
  nats : Nat → Nat
  reals : Nat → ℚ
  n : Nat
  r : Nat

def Rng.nextNat (g : Rng) : Nat × Rng := (g.nats g.n, { g with n := g.n + 1 })

def Rng.nextReal (g : Rng) : ℚ × Rng := (g.reals g.r, { g with r := g.r + 1 })

/-- models `rng.integers(bound)`: one draw in `[0, bound)`. -/
def Rng.integers (g : Rng) (bound : Nat) : Nat × Rng :=
  let d := g.nextNat
  (d.1 % bound, d.2)

/-- models `rng.uniform(a, b)`: one draw in `[a, b)`. -/
def Rng.uniform (g : Rng) (a b : ℚ) : ℚ × Rng :=
  let d := g.nextReal
  (a + (b - a) * fract d.1, d.2)

/-- models `rng.uniform(start, end)` on vectors of per-dimension bounds,
one draw per coordinate. -/
def Rng.uniformVec (g : Rng) : List ℚ → List ℚ → List ℚ × Rng
  | [], _ => ([], g)
  | _ :: _, [] => ([], g)
  | a :: as, b :: bs =>
    let d := g.uniform a b
    let rest := d.2.uniformVec as bs
    (d.1 :: rest.1, rest.2)

/-- cumulative inverse sampling: index selected by a draw `x` against a
probability vector, used to model `rng.choice(items, p=probabilities)`. -/
def roulette : List ℚ → ℚ → Nat
  | [], _ => 0
  | p :: ps, x => if x < p then 0 else roulette ps (x - p) + 1

/-- models `rng.choice` over `count` items: uniform when the probability
vector is `None`, cumulative inverse sampling otherwise. -/
def Rng.choiceIdx (g : Rng) (count : Nat) (probs : Option (List ℚ)) : Nat × Rng :=
  match probs with
  | none => g.integers count
  | some ps =>
    let d := g.nextReal
    (roulette ps (fract d.1), d.2)

/-- the `Food` class: a candidate location, a lazily computed quality and the
remaining-visit counter.  Defaults mirror `Food.__init__`: quality absent,
quantity zero. -/
structure Food where
  location : List ℚ
  quality : Option ℚ
  quantity : ℚ
deriving DecidableEq

def Food.has_food (f : Food) : Prop := 0 < f.quantity

instance (f : Food) : Decidable f.has_food :=
  inferInstanceAs (Decidable (0 < f.quantity))

def Food.is_exhausted (f : Food) : Prop := f.quantity = 0

instance (f : Food) : Decidable f.is_exhausted :=
  inferInstanceAs (Decidable (f.quantity = 0))

/-- models `EmployedBee.dance` on a food: computes and caches the quality on
first disclosure, returns the (food, quality) pair, and reports how many
times the evaluation function was invoked by this call. -/
def Food.dance (f : Food) (evalFn : List ℚ → ℚ) : Food × ℚ × Nat :=
  match f.quality with
  | none =>
    let q := evalFn f.location
    ({ f with quality := some q }, q, 1)
  | some q => (f, q, 0)

/-- an agent: only the optional reference to a food-store id is semantically
relevant (the name is a debug label and the evaluation function is the one
`fitness` closure shared by the whole hive). -/
structure Bee where
  food : Option Nat
deriving DecidableEq

/-- state of a run: the food store (Python heap of `Food` objects, indexed by
id), the three role collections of the `Hive`, and the id of
`best_quality_food`. -/
structure SearchState where
  store : List Food
  scouts : List Bee
  onlookers : List Bee
  workers : List Bee
  best : Nat
deriving DecidableEq

def defaultFood : Food := ⟨[], none, 0⟩

def getFood (st : SearchState) (fid : Nat) : Food :=
  (st.store[fid]?).getD defaultFood

def setFood (st : SearchState) (fid : Nat) (f : Food) : SearchState :=
  { st with store := st.store.set fid f }

/-- allocates a fresh food object, returning its id. -/
def addFood (st : SearchState) (f : Food) : Nat × SearchState :=
  (st.store.length, { st with store := st.store ++ [f] })

/-- `dance` lifted to the store: mutates the food at `fid` in place and
returns the disclosed quality. -/
def danceAt (fitness : List ℚ → ℚ) (st : SearchState) (fid : Nat) : SearchState × ℚ :=
  let d := (getFood st fid).dance fitness
  (setFood st fid d.1, d.2.1)

/-- `EmployedBee.bring_food`: `self.food.quantity -= 1` on the food at `fid`. -/
def bring_food (st : SearchState) (fid : Nat) : SearchState :=
  setFood st fid
    { location := (getFood st fid).location
      quality := (getFood st fid).quality
      quantity := (getFood st fid).quantity - 1 }

/-- the helper `single(original_food, search_step)`: picks one coordinate
index uniformly, then adds to that coordinate its own value plus
`step * u` with `u` drawn uniformly from `[-0.5, 0.5)`. -/
def single (g : Rng) (loc : List ℚ) (step : ℚ) : List ℚ × Rng :=
  let di := g.integers loc.length
  let du := di.2.uniform (-(1 / 2)) (1 / 2)
  (loc.set di.1 (loc.getD di.1 0 + (loc.getD di.1 0 + step * du.1)), du.2)

/-- `EmployedBee.look_around(step)`: a fresh food at the perturbed location,
quality not yet evaluated, quantity zero. -/
def look_around (g : Rng) (f : Food) (step : ℚ) : Food × Rng :=
  let s := single g f.location step
  (⟨s.1, none, 0⟩, s.2)

/-- `generate_new_food(ranges, count, quantity)` after the bound rows have
been unpacked: `count` foods at uniformly random locations, each with the
configured initial quantity and no quality. -/
def generate_new_food (g : Rng) (lo hi : List ℚ) (count : Nat) (quantity : ℚ) :
    List Food × Rng :=
  match count with
  | 0 => ([], g)
  | Nat.succ k =>
    let uv := g.uniformVec lo hi
    let rest := generate_new_food uv.2 lo hi k quantity
    (⟨uv.1, none, quantity⟩ :: rest.1, rest.2)

/-- the onlooker-phase probability computation (lines 127-136 of the source):
absolute values of the disclosed qualities normalized by their sum; `none`
marks the uniform fallback taken when the sum is zero, in which case no
division is performed. -/
def rouletteProbs (qualities : List ℚ) : Option (List ℚ) :=
  let absq := qualities.map (fun q => |q|)
  let s := absq.sum
  if s = 0 then none else some (absq.map (fun x => x / s))

/-- body of the worker phase for one worker (lines 90-114 of the source).
Returns `some w` when the worker stays in the workers list (possibly bound to
a new food) and `none` when it left the food point, in which case a food-less
scout has been appended to the scouts list.  A worker with no food would make
the source raise on `worker.should_leave()`; the total model returns the
worker unchanged there, and the proved role invariant rules the case out. -/
def workerStep (fitness : List ℚ → ℚ) (step : ℚ) (st : SearchState) (g : Rng)
    (w : Bee) : Option Bee × SearchState × Rng :=
  match w.food with
  | none => (some w, st, g)
  | some fid =>
    if (getFood st fid).is_exhausted then
      (none, { st with scouts := st.scouts ++ [{ food := none }] }, g)
    else
      let d := danceAt fitness st fid
      let st1 := d.1
      let la := look_around g (getFood st1 fid) step
      let newFood := la.1
      let g1 := la.2
      let af := addFood st1 newFood
      let nid := af.1
      let st2 := af.2
      let newEval := fitness newFood.location
      if newEval > d.2 then
        let st3 := (danceAt fitness st2 nid).1
        let st4 :=
          if newEval > ((getFood st3 st3.best).quality).getD 0 then
            { st3 with best := nid }
          else st3
        (some { food := some nid }, st4, g1)
      else
        let st3 := bring_food st2 fid
        if (getFood st3 fid).is_exhausted then
          (none, { st3 with scouts := st3.scouts ++ [{ food := none }] }, g1)
        else
          (some { food := some fid }, st3, g1)

/-- `for worker in hive.get_workers()` with the index-based iterator of the
source: removing the current worker shifts its successor onto the current
index, so the successor is skipped (it is kept, unprocessed).  `keptRev`
accumulates, in reverse, the workers that remain in the list. -/
def workerLoop (fitness : List ℚ → ℚ) (step : ℚ) :
    List Bee → List Bee → SearchState → Rng → SearchState × Rng
  | keptRev, [], st, g => ({ st with workers := keptRev.reverse }, g)
  | keptRev, w :: rest, st, g =>
    let r := workerStep fitness step st g w
    match r.1 with
    | some w' => workerLoop fitness step (w' :: keptRev) rest r.2.1 r.2.2
    | none =>
      match rest with
      | [] => ({ r.2.1 with workers := keptRev.reverse }, r.2.2)
      | x :: rest' => workerLoop fitness step (x :: keptRev) rest' r.2.1 r.2.2

def workerPhase (fitness : List ℚ → ℚ) (step : ℚ) (st : SearchState) (g : Rng) :
    SearchState × Rng :=
  workerLoop fitness step [] st.workers st g

/-- `[worker.dance() for worker in hive.get_workers()]`: the choreography, a
list of (food id, disclosed quality) pairs; dancing fills missing qualities
in the store.  A food-less worker would make the source raise; the total
model skips it (the role invariant rules the case out). -/
def danceAll (fitness : List ℚ → ℚ) (st : SearchState) :
    List Bee → SearchState × List (Nat × ℚ)
  | [] => (st, [])
  | w :: ws =>
    match w.food with
    | none => danceAll fitness st ws
    | some fid =>
      let d := danceAt fitness st fid
      let rest := danceAll fitness d.1 ws
      (rest.1, (fid, d.2) :: rest.2)

/-- body of the onlooker phase for one onlooker (lines 140-160): choose a
disclosed source by roulette wheel, dance, try one neighbor; adopt it when
strictly better (updating the best), otherwise deposit when the source still
has food, and release the source when it is exhausted. -/
def onlookerStep (fitness : List ℚ → ℚ) (step : ℚ) (pairs : List (Nat × ℚ))
    (probs : Option (List ℚ)) (st : SearchState) (g : Rng) (_o : Bee) :
    Bee × SearchState × Rng :=
  let c := g.choiceIdx pairs.length probs
  let fid := (pairs.getD c.1 (0, 0)).1
  let d := danceAt fitness st fid
  let st1 := d.1
  let la := look_around c.2 (getFood st1 fid) step
  let newFood := la.1
  let g1 := la.2
  let af := addFood st1 newFood
  let nid := af.1
  let st2 := af.2
  let newEval := fitness newFood.location
  if newEval > d.2 then
    let st3 := (danceAt fitness st2 nid).1
    let st4 :=
      if newEval > ((getFood st3 st3.best).quality).getD 0 then
        { st3 with best := nid }
      else st3
    ({ food := some nid }, st4, g1)
  else
    let st3 := if (getFood st2 fid).has_food then bring_food st2 fid else st2
    if (getFood st3 fid).is_exhausted then
      ({ food := none }, st3, g1)
    else
      ({ food := some fid }, st3, g1)

def onlookerLoop (fitness : List ℚ → ℚ) (step : ℚ) (pairs : List (Nat × ℚ))
    (probs : Option (List ℚ)) :
    List Bee → List Bee → SearchState → Rng → SearchState × Rng
  | doneRev, [], st, g => ({ st with onlookers := doneRev.reverse }, g)
  | doneRev, o :: os, st, g =>
    let r := onlookerStep fitness step pairs probs st g o
    onlookerLoop fitness step pairs probs (r.1 :: doneRev) os r.2.1 r.2.2

/-- the onlooker phase (lines 116-160).  With an empty workers list the
source raises an IndexError at `choreography[:, 1]` and the run produces no
further stable point; the total model leaves the state unchanged there. -/
def onlookerPhase (fitness : List ℚ → ℚ) (step : ℚ) (st : SearchState) (g : Rng) :
    SearchState × Rng :=
  if st.workers.isEmpty then (st, g)
  else
    onlookerLoop fitness step (danceAll fitness st st.workers).2
      (rouletteProbs ((danceAll fitness st st.workers).2.map (fun p => p.2)))
      [] (danceAll fitness st st.workers).1.onlookers (danceAll fitness st st.workers).1 g

/-- body of the scout phase for one scout (lines 164-170): sample a fresh
food in the bounds with the configured `limit` quantity, convert to a worker
bound to it and append that worker to the workers list.  The scout itself is
removed by the caller. -/
def scoutStep (limit : ℚ) (lo hi : List ℚ) (st : SearchState) (g : Rng) :
    SearchState × Rng :=
  let uv := g.uniformVec lo hi
  let af := addFood st ⟨uv.1, none, limit⟩
  ({ af.2 with workers := af.2.workers ++ [{ food := some af.1 }] }, uv.2)

/-- `for scout in hive.get_scouts()` with the iterator semantics of the
source: every processed scout is removed from the list being iterated, so
the iterator skips the scout that shifts onto the current index; scouts at
odd positions of the phase-start list survive the phase unprocessed. -/
def scoutLoop (limit : ℚ) (lo hi : List ℚ) :
    List Bee → List Bee → SearchState → Rng → SearchState × Rng
  | keptRev, [], st, g => ({ st with scouts := keptRev.reverse }, g)
  | keptRev, _s :: rest, st, g =>
    let r := scoutStep limit lo hi st g
    match rest with
    | [] => ({ r.1 with scouts := keptRev.reverse }, r.2)
    | x :: rest' => scoutLoop limit lo hi (x :: keptRev) rest' r.1 r.2

def scoutPhase (limit : ℚ) (lo hi : List ℚ) (st : SearchState) (g : Rng) :
    SearchState × Rng :=
  scoutLoop limit lo hi [] st.scouts st g

/-- one iteration of the algorithm loop: worker phase, onlooker phase, scout
phase. -/
def iterOnce (fitness : List ℚ → ℚ) (step limit : ℚ) (lo hi : List ℚ)
    (st : SearchState) (g : Rng) : SearchState × Rng :=
  let w := workerPhase fitness step st g
  let o := onlookerPhase fitness step w.1 w.2
  scoutPhase limit lo hi o.1 o.2

/-- the iteration loop from index `i`, running `k` more iterations and
collecting the yielded `(iteration, best_quality_food)` snapshots. -/
def runFrom (fitness : List ℚ → ℚ) (step limit : ℚ) (lo hi : List ℚ) :
    Nat → Nat → SearchState → Rng → List (Nat × Food) × SearchState × Rng
  | _, 0, st, g => ([], st, g)
  | i, Nat.succ k, st, g =>
    let r := iterOnce fitness step limit lo hi st g
    let rest := runFrom fitness step limit lo hi (i + 1) k r.1 r.2
    ((i, getFood r.1 r.1.best) :: rest.1, rest.2)

def qualAt (st : SearchState) (w : Bee) : ℚ :=
  ((getFood st (w.food.getD 0)).quality).getD 0

/-- `max(hive.get_workers(), key=lambda w: w.food.quality).food`: the food of
the first worker achieving the maximal quality. -/
def bestWorkerFid (st : SearchState) : Nat :=
  match st.workers with
  | [] => 0
  | w :: ws =>
    (((ws.foldl (fun acc x => if qualAt st x > qualAt st acc then x else acc) w).food).getD 0)

/-- initialization (lines 52-78): hive construction, initial food placement,
initial dances and the initial best.  `none` models the ValueError the
source raises in `max` when there are no workers. -/
def beeSearchInit (fitness : List ℚ → ℚ) (lo hi : List ℚ) (nW nO nS : Nat)
    (limit : ℚ) (g : Rng) : Option (SearchState × Rng) :=
  let gf := generate_new_food g lo hi nW limit
  let st : SearchState :=
    { store := gf.1.map (fun f => (f.dance fitness).1)
      scouts := List.replicate nS { food := none }
      onlookers := List.replicate nO { food := none }
      workers := (List.range nW).map (fun k => { food := some k })
      best := 0 }
  if nW = 0 then none
  else some ({ st with best := bestWorkerFid st }, gf.2)

def validationMessage : String :=
  "search_space is of wrong shape, it should have a shape of (*,2) or (2,*), reshape or change search space"

/-- the shape check of lines 47-50: an error exactly when neither axis of
the descriptor has length 2. -/
def validateSearchSpace (space : List (List ℚ)) : Except String Unit :=
  if (space.headD []).length ≠ 2 ∧ space.length ≠ 2 then Except.error validationMessage
  else Except.ok ()

/-- `start, end = food_source_ranges` in `generate_new_food` (line 271):
unpacking the descriptor along its first axis succeeds only when it has
exactly two rows; any other row count raises a ValueError about unpacking. -/
def unpackBounds (space : List (List ℚ)) : Except String (List ℚ × List ℚ) :=
  match space with
  | [lo, hi] => Except.ok (lo, hi)
  | _ => Except.error "values to unpack (expected 2)"

/-- the body of `bee_search` once the fitness closure is fixed: validate the
search-space shape, unpack the bound rows at first use, set up the hive
and run `maxIter` iterations, returning the yielded snapshot sequence.  All
failure modes of the source on its way to the first yield are surfaced as
`Except.error`. -/
def beeSearchWith (fitness : List ℚ → ℚ) (space : List (List ℚ))
    (nBees : Nat) (nWorkers : Option Nat) (nScouts : Nat) (maxIter : Nat)
    (limit step : ℚ) (g : Rng) : Except String (List (Nat × Food)) :=
  match validateSearchSpace space with
  | Except.error e => Except.error e
  | Except.ok _ =>
    let nW := nWorkers.getD (nBees / 2)
    match unpackBounds space with
    | Except.error e => Except.error e
    | Except.ok lohi =>
      match beeSearchInit fitness lohi.1 lohi.2 nW (nBees - nW) nScouts limit g with
      | none => Except.error "max() arg is an empty sequence"
      | some sg =>
        Except.ok (runFrom fitness step limit lohi.1 lohi.2 0 maxIter sg.1 sg.2).1

/-- the `bee_search` entry point: builds the fitness closure, negating the
objective when `minimize` is set (lines 39-44), then runs the search. -/
def beeSearch (objFunc : List ℚ → ℚ) (space : List (List ℚ)) (minimize : Bool)
    (nBees : Nat) (nWorkers : Option Nat) (nScouts : Nat) (maxIter : Nat)
    (limit step : ℚ) (g : Rng) : Except String (List (Nat × Food)) :=
  beeSearchWith (if minimize then fun v => -1 * objFunc v else objFunc) space
    nBees nWorkers nScouts maxIter limit step g

/-! ## Invariants and stable points -/

/-- every bee of the list holds a valid food id. -/
def WorkersBound (store : List Food) (bees : List Bee) : Prop :=
  ∀ w ∈ bees, ∃ fid, w.food = some fid ∧ fid < store.length

/-- the food ids held by the bees of the list are pairwise distinct. -/
def FoodsDistinct (bees : List Bee) : Prop :=
  (bees.filterMap Bee.food).Nodup

def ScoutsFree (st : SearchState) : Prop := ∀ s ∈ st.scouts, s.food = none

/-- quality of the tracked `best_quality_food`. -/
def bq (st : SearchState) : ℚ := ((getFood st st.best).quality).getD 0

/-- the tracked best points at a food whose quality has been disclosed. -/
def BestSet (st : SearchState) : Prop := ((getFood st st.best).quality).isSome

/-- the structural invariant of the driver loop. -/
def InvA (st : SearchState) : Prop :=
  WorkersBound st.store st.workers ∧ FoodsDistinct st.workers ∧ ScoutsFree st ∧ BestSet st

/-- every food quantity in the store is a natural number. -/
def NatQuantities (st : SearchState) : Prop :=
  ∀ f ∈ st.store, ∃ n : Nat, f.quantity = (n : ℚ)

/-- the distinct food sources currently exploited by the workers. -/
def activeFoodSources (st : SearchState) : List Nat :=
  (st.workers.filterMap Bee.food).dedup

/-- the role invariant of the specification: workers all hold a source,
scouts hold none, and there are as many workers as active food sources. -/
def RoleInv (st : SearchState) : Prop :=
  (∀ w ∈ st.workers, w.food.isSome) ∧ (∀ s ∈ st.scouts, s.food = none) ∧
    st.workers.length = (activeFoodSources st).length

/-- the stable points of a run: the state right after initialization and
every state reached from it by whole phases. -/
inductive Stable (fitness : List ℚ → ℚ) (step limit : ℚ) (lo hi : List ℚ)
    (nW nO nS : Nat) (g0 : Rng) : SearchState → Rng → Prop
  | init (st : SearchState) (g : Rng)
      (h : beeSearchInit fitness lo hi nW nO nS limit g0 = some (st, g)) :
      Stable fitness step limit lo hi nW nO nS g0 st g
  | workerP (st : SearchState) (g : Rng)
      (h : Stable fitness step limit lo hi nW nO nS g0 st g) :
      Stable fitness step limit lo hi nW nO nS g0
        (workerPhase fitness step st g).1 (workerPhase fitness step st g).2
  | onlookerP (st : SearchState) (g : Rng)
      (h : Stable fitness step limit lo hi nW nO nS g0 st g) :
      Stable fitness step limit lo hi nW nO nS g0
        (onlookerPhase fitness step st g).1 (onlookerPhase fitness step st g).2
  | scoutP (st : SearchState) (g : Rng)
      (h : Stable fitness step limit lo hi nW nO nS g0 st g) :
      Stable fitness step limit lo hi nW nO nS g0
        (scoutPhase limit lo hi st g).1 (scoutPhase limit lo hi st g).2

/-! ## Store lemmas -/

theorem getFood_setFood_self (st : SearchState) (fid : Nat) (f : Food)
    (h : fid < st.store.length) : getFood (setFood st fid f) fid = f := by
  simp [getFood, setFood, List.getElem?_set_self', List.getElem?_eq_getElem h]

theorem getFood_setFood_ne (st : SearchState) (fid j : Nat) (f : Food)
    (h : fid ≠ j) : getFood (setFood st fid f) j = getFood st j := by
  simp [getFood, setFood, List.getElem?_set_ne h]

theorem setFood_oob (st : SearchState) (fid : Nat) (f : Food)
    (h : st.store.length ≤ fid) : setFood st fid f = st := by
  simp [setFood, List.set_eq_of_length_le h]

theorem length_setFood (st : SearchState) (fid : Nat) (f : Food) :
    (setFood st fid f).store.length = st.store.length := by
  simp [setFood]

theorem setFood_fields (st : SearchState) (fid : Nat) (f : Food) :
    (setFood st fid f).scouts = st.scouts ∧ (setFood st fid f).onlookers = st.onlookers ∧
    (setFood st fid f).workers = st.workers ∧ (setFood st fid f).best = st.best := by
  simp [setFood]

theorem getFood_addFood_lt (st : SearchState) (f : Food) (j : Nat)
    (h : j < st.store.length) : getFood (addFood st f).2 j = getFood st j := by
  simp [getFood, addFood, List.getElem?_append_left h]

theorem getFood_addFood_self (st : SearchState) (f : Food) :
    getFood (addFood st f).2 (addFood st f).1 = f := by
  simp [getFood, addFood, List.getElem?_concat_length]

theorem length_addFood (st : SearchState) (f : Food) :
    (addFood st f).2.store.length = st.store.length + 1 := by
  simp [addFood]

theorem getFood_oob (st : SearchState) (j : Nat) (h : st.store.length ≤ j) :
    getFood st j = defaultFood := by
  simp [getFood, List.getElem?_eq_none h]

theorem getFood_lt (st : SearchState) (fid : Nat) (h : fid < st.store.length) :
    getFood st fid = st.store[fid] := by
  simp [getFood, List.getElem?_eq_getElem h]

/-! ## Preservation lemmas for the store operations -/

/-- once disclosed, a quality value survives the evolution of the store. -/
def QualPres (st st' : SearchState) : Prop :=
  ∀ fid q, (getFood st fid).quality = some q → (getFood st' fid).quality = some q

theorem qualPres_refl (st : SearchState) : QualPres st st := fun _ _ h => h

theorem qualPres_trans {s1 s2 s3 : SearchState} (h1 : QualPres s1 s2)
    (h2 : QualPres s2 s3) : QualPres s1 s3 :=
  fun fid q h => h2 fid q (h1 fid q h)

theorem natQ_getFood {st : SearchState} (h : NatQuantities st) (fid : Nat) :
    ∃ n : Nat, (getFood st fid).quantity = (n : ℚ) := by
  rcases Nat.lt_or_ge fid st.store.length with hlt | hge
  · have hmem : getFood st fid ∈ st.store := by
      rw [getFood_lt st fid hlt]
      exact List.getElem_mem hlt
    exact h _ hmem
  · exact ⟨0, by simp [getFood_oob st fid hge, defaultFood]⟩

theorem danceAt_fields (fitness : List ℚ → ℚ) (st : SearchState) (fid : Nat) :
    (danceAt fitness st fid).1.scouts = st.scouts ∧
    (danceAt fitness st fid).1.onlookers = st.onlookers ∧
    (danceAt fitness st fid).1.workers = st.workers ∧
    (danceAt fitness st fid).1.best = st.best ∧
    (danceAt fitness st fid).1.store.length = st.store.length := by
  simp [danceAt, setFood]

theorem quantity_danceAt (fitness : List ℚ → ℚ) (st : SearchState) (fid j : Nat) :
    (getFood (danceAt fitness st fid).1 j).quantity = (getFood st j).quantity := by
  rcases Nat.lt_or_ge fid st.store.length with hlt | hge
  · rcases Decidable.em (fid = j) with rfl | hne
    · rw [danceAt, getFood_setFood_self _ _ _ hlt]
      cases hq : (getFood st fid).quality <;> simp [Food.dance, hq]
    · rw [danceAt, getFood_setFood_ne _ _ _ _ hne]
  · rw [danceAt, setFood_oob _ _ _ hge]

theorem qualPres_danceAt (fitness : List ℚ → ℚ) (st : SearchState) (fid : Nat) :
    QualPres st (danceAt fitness st fid).1 := by
  intro j q hj
  rcases Nat.lt_or_ge fid st.store.length with hlt | hge
  · rcases Decidable.em (fid = j) with rfl | hne
    · rw [danceAt, getFood_setFood_self _ _ _ hlt]
      cases hq : (getFood st fid).quality <;> simp [Food.dance, hq] <;>
        simp [hq] at hj <;> exact hj
    · rwa [danceAt, getFood_setFood_ne _ _ _ _ hne]
  · rwa [danceAt, setFood_oob _ _ _ hge]

theorem natQ_danceAt (fitness : List ℚ → ℚ) (st : SearchState) (fid : Nat)
    (h : NatQuantities st) : NatQuantities (danceAt fitness st fid).1 := by
  intro f hf
  simp only [danceAt, setFood] at hf
  rcases List.mem_or_eq_of_mem_set hf with hmem | rfl
  · exact h _ hmem
  · have := natQ_getFood h fid
    cases hq : (getFood st fid).quality <;> simp [Food.dance, hq] <;> simpa [hq] using this

theorem quality_danceAt_self (fitness : List ℚ → ℚ) (st : SearchState) (fid : Nat)
    (h : fid < st.store.length) :
    (getFood (danceAt fitness st fid).1 fid).quality = some (danceAt fitness st fid).2 := by
  rw [danceAt, getFood_setFood_self _ _ _ h]
  cases hq : (getFood st fid).quality <;> simp [Food.dance, hq]

theorem danceAt_q_of_some (fitness : List ℚ → ℚ) (st : SearchState) (fid : Nat)
    (q : ℚ) (h : (getFood st fid).quality = some q) :
    (danceAt fitness st fid).2 = q := by
  simp [danceAt, Food.dance, h]

theorem danceAt_q_of_none (fitness : List ℚ → ℚ) (st : SearchState) (fid : Nat)
    (h : (getFood st fid).quality = none) :
    (danceAt fitness st fid).2 = fitness (getFood st fid).location := by
  simp [danceAt, Food.dance, h]

theorem location_danceAt (fitness : List ℚ → ℚ) (st : SearchState) (fid j : Nat) :
    (getFood (danceAt fitness st fid).1 j).location = (getFood st j).location := by
  rcases Nat.lt_or_ge fid st.store.length with hlt | hge
  · rcases Decidable.em (fid = j) with rfl | hne
    · rw [danceAt, getFood_setFood_self _ _ _ hlt]
      cases hq : (getFood st fid).quality <;> simp [Food.dance, hq]
    · rw [danceAt, getFood_setFood_ne _ _ _ _ hne]
  · rw [danceAt, setFood_oob _ _ _ hge]

theorem addFood_fields (st : SearchState) (f : Food) :
    (addFood st f).2.scouts = st.scouts ∧ (addFood st f).2.onlookers = st.onlookers ∧
    (addFood st f).2.workers = st.workers ∧ (addFood st f).2.best = st.best := by
  simp [addFood]

theorem qualPres_addFood (st : SearchState) (f : Food) :
    QualPres st (addFood st f).2 := by
  intro j q hj
  rcases Nat.lt_or_ge j st.store.length with hlt | hge
  · rwa [getFood_addFood_lt _ _ _ hlt]
  · rw [getFood_oob st j hge] at hj
    simp [defaultFood] at hj

theorem quantity_addFood_lt (st : SearchState) (f : Food) (j : Nat)
    (h : j < st.store.length) :
    (getFood (addFood st f).2 j).quantity = (getFood st j).quantity := by
  rw [getFood_addFood_lt _ _ _ h]

theorem natQ_addFood (st : SearchState) (f : Food) (n : Nat)
    (hf : f.quantity = (n : ℚ)) (h : NatQuantities st) :
    NatQuantities (addFood st f).2 := by
  intro x hx
  simp only [addFood, List.mem_append, List.mem_singleton] at hx
  rcases hx with hx | rfl
  · exact h _ hx
  · exact ⟨n, hf⟩

/-- best-tracking across one state evolution. -/
theorem bq_eq_of_qualPres {st st' : SearchState} (hq : QualPres st st')
    (hb : st'.best = st.best) (hs : BestSet st) : BestSet st' ∧ bq st' = bq st := by
  rcases Option.isSome_iff_exists.1 hs with ⟨q, hqq⟩
  have h' := hq st.best q hqq
  refine ⟨?_, ?_⟩
  · rw [BestSet, hb, h']; rfl
  · rw [bq, bq, hb, h', hqq]

theorem qualPres_set_best (st : SearchState) (b : Nat) :
    QualPres st { st with best := b } := fun _ _ h => h

theorem qualPres_set_scouts (st : SearchState) (s : List Bee) :
    QualPres st { st with scouts := s } := fun _ _ h => h

theorem look_around_parts (g : Rng) (f : Food) (step : ℚ) :
    (look_around g f step).1.quality = none ∧ (look_around g f step).1.quantity = 0 := by
  simp [look_around]

theorem lt_len_of_quantity_ne_zero (st : SearchState) (fid : Nat)
    (h : (getFood st fid).quantity ≠ 0) : fid < st.store.length := by
  by_contra hge
  rw [getFood_oob st fid (Nat.le_of_not_lt hge)] at h
  simp [defaultFood] at h

theorem natQ_bring_food (st : SearchState) (fid : Nat)
    (hnz : (getFood st fid).quantity ≠ 0) (h : NatQuantities st) :
    NatQuantities (bring_food st fid) := by
  intro f hf
  simp only [bring_food, setFood] at hf
  rcases List.mem_or_eq_of_mem_set hf with hmem | rfl
  · exact h _ hmem
  · rcases natQ_getFood h fid with ⟨n, hn⟩
    rcases n with _ | m
    · exact absurd hn (by simpa using hnz)
    · exact ⟨m, by simp only []; rw [hn]; push_cast; ring⟩

theorem qualPres_bring_food (st : SearchState) (fid : Nat) :
    QualPres st (bring_food st fid) := by
  intro j q hj
  rw [bring_food]
  rcases Nat.lt_or_ge fid st.store.length with hlt | hge
  · rcases Decidable.em (fid = j) with rfl | hne
    · rw [getFood_setFood_self _ _ _ hlt]; exact hj
    · rwa [getFood_setFood_ne _ _ _ _ hne]
  · rwa [setFood_oob _ _ _ hge]

theorem length_bring_food (st : SearchState) (fid : Nat) :
    (bring_food st fid).store.length = st.store.length := length_setFood _ _ _

theorem bring_food_fields (st : SearchState) (fid : Nat) :
    (bring_food st fid).scouts = st.scouts ∧ (bring_food st fid).onlookers = st.onlookers ∧
    (bring_food st fid).workers = st.workers ∧ (bring_food st fid).best = st.best :=
  setFood_fields st fid _

theorem quantity_bring_food_self (st : SearchState) (fid : Nat)
    (h : fid < st.store.length) :
    (getFood (bring_food st fid) fid).quantity = (getFood st fid).quantity - 1 := by
  rw [bring_food, getFood_setFood_self _ _ _ h]

/-- joint properties of the shared adopt-the-new-solution path: allocate the
candidate food, dance on it (filling its quality with its evaluation) and
re-point the best when the evaluation strictly beats it. -/
theorem adopt_spec (fitness : List ℚ → ℚ) (st1 : SearchState) (newFood : Food)
    (hq : newFood.quality = none) (hn : newFood.quantity = 0) :
    ∀ nid st2 st3 st4 : _, nid = (addFood st1 newFood).1 → st2 = (addFood st1 newFood).2 →
    st3 = (danceAt fitness st2 nid).1 →
    st4 = (if fitness newFood.location > ((getFood st3 st3.best).quality).getD 0
        then { st3 with best := nid } else st3) →
    st1.store.length < st4.store.length ∧ QualPres st1 st4 ∧
      st4.workers = st1.workers ∧ st4.onlookers = st1.onlookers ∧
      st4.scouts = st1.scouts ∧
      (BestSet st1 → BestSet st4 ∧ bq st1 ≤ bq st4) ∧
      (NatQuantities st1 → NatQuantities st4) ∧
      nid = st1.store.length ∧ nid < st4.store.length ∧
      (∀ j, (getFood st4 j).quantity = if j = nid then (0 : ℚ) else (getFood st1 j).quantity) := by
  intro nid st2 st3 st4 hnid hst2 hst3 hst4
  have hnid' : nid = st1.store.length := by rw [hnid]; rfl
  have hlen2 : st2.store.length = st1.store.length + 1 := by rw [hst2, length_addFood]
  have hnidlt : nid < st2.store.length := by omega
  have hlen3 : st3.store.length = st2.store.length := by
    rw [hst3]; exact (danceAt_fields fitness st2 nid).2.2.2.2
  have hfood2 : getFood st2 nid = newFood := by
    rw [hst2, hnid]; exact getFood_addFood_self st1 newFood
  have hquality3 : (getFood st3 nid).quality = some (fitness newFood.location) := by
    rw [hst3]
    have h1 := quality_danceAt_self fitness st2 nid hnidlt
    have h2 := danceAt_q_of_none fitness st2 nid (by rw [hfood2, hq])
    rw [h1, h2, hfood2]
  have hqp12 : QualPres st1 st2 := by rw [hst2]; exact qualPres_addFood st1 newFood
  have hqp23 : QualPres st2 st3 := by rw [hst3]; exact qualPres_danceAt fitness st2 nid
  have hbest3 : st3.best = st1.best := by
    rw [hst3, (danceAt_fields fitness st2 nid).2.2.2.1, hst2]
    exact (addFood_fields st1 newFood).2.2.2
  have hqp13 : QualPres st1 st3 := qualPres_trans hqp12 hqp23
  have hw3 : st3.workers = st1.workers := by
    rw [hst3, (danceAt_fields fitness st2 nid).2.2.1, hst2]
    exact (addFood_fields st1 newFood).2.2.1
  have ho3 : st3.onlookers = st1.onlookers := by
    rw [hst3, (danceAt_fields fitness st2 nid).2.1, hst2]
    exact (addFood_fields st1 newFood).2.1
  have hs3 : st3.scouts = st1.scouts := by
    rw [hst3, (danceAt_fields fitness st2 nid).1, hst2]
    exact (addFood_fields st1 newFood).1
  have hquant3 : ∀ j, (getFood st3 j).quantity =
      if j = nid then (0 : ℚ) else (getFood st1 j).quantity := by
    intro j
    rw [hst3, quantity_danceAt]
    rcases Decidable.em (j = nid) with rfl | hne
    · rw [hfood2, hn, if_pos rfl]
    · rw [if_neg hne]
      rcases Nat.lt_or_ge j st1.store.length with hlt | hge
      · rw [hst2, quantity_addFood_lt _ _ _ hlt]
      · have hge2 : st2.store.length ≤ j := by omega
        rw [getFood_oob st1 j hge, getFood_oob st2 j hge2]
  have hnatQ3 : NatQuantities st1 → NatQuantities st3 := by
    intro h
    rw [hst3]
    exact natQ_danceAt fitness _ nid (by rw [hst2]; exact natQ_addFood st1 newFood 0 (by rw [hn]; norm_num) h)
  -- now split on the best update
  rcases Decidable.em (fitness newFood.location > ((getFood st3 st3.best).quality).getD 0) with hc | hc
  · rw [if_pos hc] at hst4
    refine ⟨by rw [hst4]; simp only []; omega, ?_, ?_, ?_, ?_, ?_, ?_, hnid', by rw [hst4]; simp only []; omega, ?_⟩
    · rw [hst4]; exact qualPres_trans hqp13 (qualPres_set_best st3 nid)
    · rw [hst4]; exact hw3
    · rw [hst4]; exact ho3
    · rw [hst4]; exact hs3
    · intro hbs
      rcases Option.isSome_iff_exists.1 hbs with ⟨q0, hq0⟩
      have hq0' := hqp13 st1.best q0 hq0
      constructor
      · rw [hst4]
        show ((getFood st3 nid).quality).isSome = true
        rw [hquality3]; rfl
      · rw [hst4]
        show bq st1 ≤ ((getFood st3 nid).quality).getD 0
        rw [hquality3]
        have : bq st1 = ((getFood st3 st3.best).quality).getD 0 := by
          rw [hbest3, hq0', bq, hq0]
        rw [this]
        exact le_of_lt hc
    · intro h; rw [hst4]; exact hnatQ3 h
    · intro j
      rw [hst4]
      show (getFood st3 j).quantity = _
      exact hquant3 j
  · rw [if_neg hc] at hst4
    subst hst4
    refine ⟨by omega, hqp13, hw3, ho3, hs3, ?_, hnatQ3, hnid', by omega, hquant3⟩
    intro hbs
    rcases Option.isSome_iff_exists.1 hbs with ⟨q0, hq0⟩
    have hq0' := hqp13 st1.best q0 hq0
    have heq := bq_eq_of_qualPres hqp13 hbest3 hbs
    exact ⟨heq.1, le_of_eq heq.2.symm⟩

/-- everything the loop invariants need to know about one worker-phase body. -/
theorem workerStep_spec (fitness : List ℚ → ℚ) (step : ℚ) (st : SearchState) (g : Rng)
    (w : Bee) (res : Option Bee) (st' : SearchState) (g' : Rng)
    (h : workerStep fitness step st g w = (res, st', g')) :
    st.store.length ≤ st'.store.length ∧ QualPres st st' ∧
    st'.workers = st.workers ∧ st'.onlookers = st.onlookers ∧
    (st'.scouts = st.scouts ∨ st'.scouts = st.scouts ++ [{ food := none }]) ∧
    (BestSet st → BestSet st' ∧ bq st ≤ bq st') ∧
    (NatQuantities st → NatQuantities st') ∧
    (∀ w'', res = some w'' → w''.food = w.food ∨
      ∃ nid, w''.food = some nid ∧ st.store.length ≤ nid ∧ nid < st'.store.length) := by
  cases hw : w.food with
  | none =>
    simp only [workerStep, hw, Prod.mk.injEq] at h
    obtain ⟨h1, h2, h3⟩ := h
    subst h2
    refine ⟨le_refl _, qualPres_refl _, rfl, rfl, Or.inl rfl, ?_, fun hq => hq, ?_⟩
    · intro hbs; exact ⟨hbs, le_refl _⟩
    · intro w'' hw''
      rw [← h1] at hw''
      exact Or.inl (by rw [Option.some.injEq] at hw''; rw [← hw'', hw])
  | some fid =>
    simp only [workerStep, hw] at h
    by_cases hex : (getFood st fid).is_exhausted
    · rw [if_pos hex] at h
      simp only [Prod.mk.injEq] at h
      obtain ⟨h1, h2, h3⟩ := h
      subst h2
      refine ⟨le_refl _, qualPres_refl _, rfl, rfl, Or.inr rfl, ?_, fun hq => hq, ?_⟩
      · intro hbs; exact ⟨hbs, le_refl _⟩
      · intro w'' hw''; rw [← h1] at hw''; exact absurd hw'' (by simp)
    · rw [if_neg hex] at h
      have hnz : (getFood st fid).quantity ≠ 0 := hex
      have hfidlt : fid < st.store.length := lt_len_of_quantity_ne_zero st fid hnz
      have hlen1 : (danceAt fitness st fid).1.store.length = st.store.length :=
        (danceAt_fields fitness st fid).2.2.2.2
      have hqp01 : QualPres st (danceAt fitness st fid).1 := qualPres_danceAt fitness st fid
      have hb1 : (danceAt fitness st fid).1.best = st.best :=
        (danceAt_fields fitness st fid).2.2.2.1
      have hw1 : (danceAt fitness st fid).1.workers = st.workers :=
        (danceAt_fields fitness st fid).2.2.1
      have ho1 : (danceAt fitness st fid).1.onlookers = st.onlookers :=
        (danceAt_fields fitness st fid).2.1
      have hs1 : (danceAt fitness st fid).1.scouts = st.scouts :=
        (danceAt_fields fitness st fid).1
      have hnq1 : NatQuantities st → NatQuantities (danceAt fitness st fid).1 :=
        natQ_danceAt fitness st fid
      by_cases hcomp : fitness (look_around g (getFood (danceAt fitness st fid).1 fid) step).1.location >
          (danceAt fitness st fid).2
      · rw [if_pos hcomp] at h
        simp only [Prod.mk.injEq] at h
        obtain ⟨h1, h2, h3⟩ := h
        have hspec := adopt_spec fitness (danceAt fitness st fid).1
          (look_around g (getFood (danceAt fitness st fid).1 fid) step).1
          (look_around_parts _ _ _).1 (look_around_parts _ _ _).2
          _ _ _ _ rfl rfl rfl rfl
        rw [h2] at hspec
        obtain ⟨hl, hqp, hwk, hol, hsc, hbm, hnq, hnid, hnidlt, _⟩ := hspec
        refine ⟨by omega, qualPres_trans hqp01 hqp, by rw [hwk, hw1], by rw [hol, ho1],
          Or.inl (by rw [hsc, hs1]), ?_, fun hq => hnq (hnq1 hq), ?_⟩
        · intro hbs
          have hb01 := bq_eq_of_qualPres hqp01 hb1 hbs
          have := hbm hb01.1
          exact ⟨this.1, hb01.2 ▸ this.2⟩
        · intro w'' hw''
          rw [← h1] at hw''
          rw [Option.some.injEq] at hw''
          refine Or.inr ⟨(addFood (danceAt fitness st fid).1
            (look_around g (getFood (danceAt fitness st fid).1 fid) step).1).1, ?_, ?_, ?_⟩
          · rw [← hw'']
          · rw [hnid, hlen1]
          · omega
      · rw [if_neg hcomp] at h
        -- the deposit branch: bring_food, then possibly leave
        have hq2 : (getFood (addFood (danceAt fitness st fid).1
            (look_around g (getFood (danceAt fitness st fid).1 fid) step).1).2 fid).quantity =
            (getFood st fid).quantity := by
          rw [quantity_addFood_lt _ _ _ (by rw [hlen1]; exact hfidlt), quantity_danceAt]
        have hlen2 : (addFood (danceAt fitness st fid).1
            (look_around g (getFood (danceAt fitness st fid).1 fid) step).1).2.store.length =
            st.store.length + 1 := by rw [length_addFood, hlen1]
        have hqp02 : QualPres st (addFood (danceAt fitness st fid).1
            (look_around g (getFood (danceAt fitness st fid).1 fid) step).1).2 :=
          qualPres_trans hqp01 (qualPres_addFood _ _)
        have hnq2 : NatQuantities st → NatQuantities (addFood (danceAt fitness st fid).1
            (look_around g (getFood (danceAt fitness st fid).1 fid) step).1).2 := by
          intro hq
          exact natQ_addFood _ _ 0 (look_around_parts _ _ _).2 (hnq1 hq)
        generalize hst2eq : (addFood (danceAt fitness st fid).1
          (look_around g (getFood (danceAt fitness st fid).1 fid) step).1).2 = st2 at *
        have hb2 : st2.best = st.best := by
          rw [← hst2eq, (addFood_fields _ _).2.2.2, hb1]
        have hw2 : st2.workers = st.workers := by
          rw [← hst2eq, (addFood_fields _ _).2.2.1, hw1]
        have ho2 : st2.onlookers = st.onlookers := by
          rw [← hst2eq, (addFood_fields _ _).2.1, ho1]
        have hs2 : st2.scouts = st.scouts := by
          rw [← hst2eq, (addFood_fields _ _).1, hs1]
        -- properties of the decremented state
        have hqp23 : QualPres st2 (bring_food st2 fid) := qualPres_bring_food st2 fid
        have hnq23 : NatQuantities st2 → NatQuantities (bring_food st2 fid) :=
          natQ_bring_food st2 fid (by rw [hq2]; exact hnz)
        have hlen3 : (bring_food st2 fid).store.length = st2.store.length :=
          length_bring_food _ _
        have hb3 : (bring_food st2 fid).best = st.best := by
          rw [(bring_food_fields _ _).2.2.2, hb2]
        have hqp03 : QualPres st (bring_food st2 fid) := qualPres_trans hqp02 hqp23
        by_cases hex3 : (getFood (bring_food st2 fid) fid).is_exhausted
        · rw [if_pos hex3] at h
          simp only [Prod.mk.injEq] at h
          obtain ⟨h1, h2, h3⟩ := h
          refine ⟨?_, ?_, ?_, ?_, ?_, ?_, ?_, ?_⟩
          · rw [← h2]; show st.store.length ≤ (bring_food st2 fid).store.length; omega
          · rw [← h2]; exact qualPres_trans hqp03 (qualPres_set_scouts _ _)
          · rw [← h2]; show (bring_food st2 fid).workers = st.workers
            rw [(bring_food_fields _ _).2.2.1, hw2]
          · rw [← h2]; show (bring_food st2 fid).onlookers = st.onlookers
            rw [(bring_food_fields _ _).2.1, ho2]
          · rw [← h2]
            refine Or.inr ?_
            show (bring_food st2 fid).scouts ++ _ = st.scouts ++ _
            rw [(bring_food_fields _ _).1, hs2]
          · intro hbs
            rw [← h2]
            have hstep := bq_eq_of_qualPres hqp03 hb3 hbs
            have h4 : QualPres (bring_food st2 fid)
                { bring_food st2 fid with
                  scouts := (bring_food st2 fid).scouts ++ [{ food := none }] } :=
              qualPres_set_scouts _ _
            have h5 := bq_eq_of_qualPres h4 rfl hstep.1
            exact ⟨h5.1, by rw [h5.2, hstep.2]⟩
          · intro hq
            rw [← h2]
            intro f hf
            exact hnq23 (hnq2 hq) f hf
          · intro w'' hw''; rw [← h1] at hw''; exact absurd hw'' (by simp)
        · rw [if_neg hex3] at h
          simp only [Prod.mk.injEq] at h
          obtain ⟨h1, h2, h3⟩ := h
          refine ⟨?_, ?_, ?_, ?_, ?_, ?_, ?_, ?_⟩
          · rw [← h2]; omega
          · rw [← h2]; exact hqp03
          · rw [← h2, (bring_food_fields _ _).2.2.1, hw2]
          · rw [← h2, (bring_food_fields _ _).2.1, ho2]
          · rw [← h2]; exact Or.inl (by rw [(bring_food_fields _ _).1, hs2])
          · intro hbs
            rw [← h2]
            have hstep := bq_eq_of_qualPres hqp03 hb3 hbs
            exact ⟨hstep.1, le_of_eq hstep.2.symm⟩
          · intro hq; rw [← h2]; exact hnq23 (hnq2 hq)
          · intro w'' hw''
            rw [← h1, Option.some.injEq] at hw''
            exact Or.inl (by rw [← hw''])

/-! ## Loop-level preservation -/

/-- how any portion of a phase may evolve the state: the store only grows,
disclosed qualities persist and the best only improves. -/
def Ev (st st' : SearchState) : Prop :=
  st.store.length ≤ st'.store.length ∧ QualPres st st' ∧
  (BestSet st → BestSet st' ∧ bq st ≤ bq st')

theorem Ev.rfl (st : SearchState) : Ev st st :=
  ⟨le_refl _, qualPres_refl st, fun h => ⟨h, le_refl _⟩⟩

theorem Ev.trans {s1 s2 s3 : SearchState} (h1 : Ev s1 s2) (h2 : Ev s2 s3) : Ev s1 s3 := by
  refine ⟨le_trans h1.1 h2.1, qualPres_trans h1.2.1 h2.2.1, ?_⟩
  intro hb
  have a1 := h1.2.2 hb
  have a2 := h2.2.2 a1.1
  exact ⟨a2.1, le_trans a1.2 a2.2⟩

theorem workerStep_ev (fitness : List ℚ → ℚ) (step : ℚ) (st : SearchState) (g : Rng)
    (w : Bee) (res : Option Bee) (st' : SearchState) (g' : Rng)
    (h : workerStep fitness step st g w = (res, st', g')) : Ev st st' := by
  have hs := workerStep_spec fitness step st g w res st' g' h
  exact ⟨hs.1, hs.2.1, hs.2.2.2.2.2.1⟩

theorem WorkersBound_mono {store store' : List Food} {l : List Bee}
    (h : store.length ≤ store'.length) (hw : WorkersBound store l) :
    WorkersBound store' l := by
  intro w hm
  rcases hw w hm with ⟨fid, h1, h2⟩
  exact ⟨fid, h1, lt_of_lt_of_le h2 h⟩

theorem WorkersBound_subset {store : List Food} {l l' : List Bee}
    (hsub : ∀ x ∈ l', x ∈ l) (hw : WorkersBound store l) : WorkersBound store l' :=
  fun w hm => hw w (hsub w hm)

theorem FoodsDistinct_perm {l l' : List Bee} (hp : l.Perm l') (h : FoodsDistinct l) :
    FoodsDistinct l' := (hp.filterMap Bee.food).nodup h

theorem FoodsDistinct_sublist {l l' : List Bee} (hs : l'.Sublist l)
    (h : FoodsDistinct l) : FoodsDistinct l' :=
  List.Nodup.sublist (hs.filterMap Bee.food) h

theorem ScoutsFree_of_append (st st' : SearchState)
    (h : st'.scouts = st.scouts ∨ st'.scouts = st.scouts ++ [{ food := none }])
    (hs : ScoutsFree st) : ScoutsFree st' := by
  intro s hm
  rcases h with h | h <;> rw [h] at hm
  · exact hs s hm
  · rcases List.mem_append.1 hm with hm | hm
    · exact hs s hm
    · rw [List.mem_singleton.1 hm]

/-- final state of a phase loop: install the accumulated list of workers. -/
theorem workerLoop_nil_spec (fitness : List ℚ → ℚ) (step : ℚ) (keptRev : List Bee)
    (st : SearchState) (g : Rng) :
    workerLoop fitness step keptRev [] st g = ({ st with workers := keptRev.reverse }, g) := by
  rw [workerLoop]

theorem install_workers_spec (st : SearchState) (keptRev : List Bee)
    (hwb : WorkersBound st.store keptRev) (hfd : FoodsDistinct keptRev)
    (hsf : ScoutsFree st) :
    Ev st { st with workers := keptRev.reverse } ∧
    WorkersBound ({ st with workers := keptRev.reverse } : SearchState).store
      ({ st with workers := keptRev.reverse } : SearchState).workers ∧
    FoodsDistinct ({ st with workers := keptRev.reverse } : SearchState).workers ∧
    ScoutsFree { st with workers := keptRev.reverse } ∧
    ({ st with workers := keptRev.reverse } : SearchState).onlookers = st.onlookers ∧
    (NatQuantities st → NatQuantities { st with workers := keptRev.reverse }) := by
  refine ⟨⟨le_refl _, fun j q h => h, fun hb => ⟨hb, le_refl _⟩⟩, ?_, ?_, hsf, rfl, fun h => h⟩
  · exact WorkersBound_subset (fun x hx => List.mem_reverse.1 hx) hwb
  · exact FoodsDistinct_perm (List.reverse_perm keptRev).symm hfd

/-- invariant preservation through the worker-phase loop, by strong
induction on the length of the unprocessed suffix (the skip after a removal
drops two elements at once). -/
theorem workerLoop_spec (fitness : List ℚ → ℚ) (step : ℚ) :
    ∀ (n : Nat) (suffix : List Bee), suffix.length ≤ n →
    ∀ (keptRev : List Bee) (st : SearchState) (g : Rng),
      WorkersBound st.store (keptRev ++ suffix) → FoodsDistinct (keptRev ++ suffix) →
      ScoutsFree st →
      Ev st (workerLoop fitness step keptRev suffix st g).1 ∧
      WorkersBound (workerLoop fitness step keptRev suffix st g).1.store
        (workerLoop fitness step keptRev suffix st g).1.workers ∧
      FoodsDistinct (workerLoop fitness step keptRev suffix st g).1.workers ∧
      ScoutsFree (workerLoop fitness step keptRev suffix st g).1 ∧
      (workerLoop fitness step keptRev suffix st g).1.onlookers = st.onlookers ∧
      (NatQuantities st → NatQuantities (workerLoop fitness step keptRev suffix st g).1) := by
  intro n
  induction n with
  | zero =>
    intro suffix hlen keptRev st g hwb hfd hsf
    have hnil : suffix = [] := List.eq_nil_of_length_eq_zero (Nat.le_zero.1 hlen)
    subst hnil
    rw [workerLoop_nil_spec]
    exact install_workers_spec st keptRev (by simpa using hwb) (by simpa using hfd) hsf
  | succ n ihn =>
    intro suffix hlen keptRev st g hwb hfd hsf
    cases suffix with
    | nil =>
      rw [workerLoop_nil_spec]
      exact install_workers_spec st keptRev (by simpa using hwb) (by simpa using hfd) hsf
    | cons w rest =>
      rcases hr : workerStep fitness step st g w with ⟨res, st1, g1⟩
      have hspec := workerStep_spec fitness step st g w res st1 g1 hr
      obtain ⟨hlen1, hqp1, hwk1, hol1, hsc1, hbm1, hnq1, hres⟩ := hspec
      have hev1 : Ev st st1 := ⟨hlen1, hqp1, hbm1⟩
      have hsf1 : ScoutsFree st1 := ScoutsFree_of_append st st1 hsc1 hsf
      have hwmem : w ∈ keptRev ++ w :: rest := by simp
      cases res with
      | some w' =>
        have hloop : workerLoop fitness step keptRev (w :: rest) st g =
            workerLoop fitness step (w' :: keptRev) rest st1 g1 := by
          rw [workerLoop.eq_def]
          simp only [hr]
        rw [hloop]
        -- hypotheses for the recursive call
        have hwb1 : WorkersBound st1.store ((w' :: keptRev) ++ rest) := by
          intro x hx
          have hx' : x = w' ∨ x ∈ keptRev ∨ x ∈ rest := by simpa using hx
          rcases hx' with rfl | hk | hk
          · rcases hres x rfl with hsame | ⟨nid, hn1, _, hn3⟩
            · rcases hwb w hwmem with ⟨fid, hf1, hf2⟩
              exact ⟨fid, by rw [hsame, hf1], lt_of_lt_of_le hf2 hlen1⟩
            · exact ⟨nid, hn1, hn3⟩
          · exact WorkersBound_mono hlen1 hwb x (List.mem_append.2 (Or.inl hk))
          · exact WorkersBound_mono hlen1 hwb x
              (List.mem_append.2 (Or.inr (List.mem_cons_of_mem w hk)))
        have hfd1 : FoodsDistinct ((w' :: keptRev) ++ rest) := by
          rw [List.cons_append]
          rcases hres w' rfl with hsame | ⟨nid, hn1, hn2, _⟩
          · have hmid := FoodsDistinct_perm List.perm_middle hfd
            show FoodsDistinct (w' :: (keptRev ++ rest))
            unfold FoodsDistinct at hmid ⊢
            rcases hwf : w.food with _ | fid
            · have hwf' : w'.food = none := hsame.trans hwf
              simp only [List.filterMap_cons, hwf']
              simp only [List.filterMap_cons, hwf] at hmid
              exact hmid
            · have hwf' : w'.food = some fid := hsame.trans hwf
              simp only [List.filterMap_cons, hwf']
              simp only [List.filterMap_cons, hwf] at hmid
              exact hmid
          · have hsub : (keptRev ++ rest).Sublist (keptRev ++ w :: rest) :=
              (List.sublist_cons_self w rest).append_left keptRev
            have hnd0 := FoodsDistinct_sublist hsub hfd
            show FoodsDistinct (w' :: (keptRev ++ rest))
            unfold FoodsDistinct at hnd0 ⊢
            simp only [List.filterMap_cons, hn1, List.nodup_cons]
            refine ⟨?_, hnd0⟩
            intro hmem
            rcases List.mem_filterMap.1 hmem with ⟨x, hx, hxf⟩
            have hxin : x ∈ keptRev ++ w :: rest := by
              rcases List.mem_append.1 hx with hk | hk
              · exact List.mem_append.2 (Or.inl hk)
              · exact List.mem_append.2 (Or.inr (List.mem_cons_of_mem w hk))
            rcases hwb x hxin with ⟨fid, hf1, hf2⟩
            rw [hxf] at hf1
            rw [Option.some.injEq] at hf1
            omega
        have hrest : rest.length ≤ n := by
          have := hlen
          simp only [List.length_cons] at this
          omega
        have hih := ihn rest hrest (w' :: keptRev) st1 g1 hwb1 hfd1 hsf1
        exact ⟨hev1.trans hih.1, hih.2.1, hih.2.2.1, hih.2.2.2.1,
          hih.2.2.2.2.1.trans hol1, fun h => hih.2.2.2.2.2 (hnq1 h)⟩
      | none =>
        cases rest with
        | nil =>
          have hloop : workerLoop fitness step keptRev [w] st g =
              ({ st1 with workers := keptRev.reverse }, g1) := by
            rw [workerLoop.eq_def]
            simp only [hr]
          rw [hloop]
          have hwb1 : WorkersBound st1.store keptRev := by
            refine WorkersBound_mono hlen1 (WorkersBound_subset ?_ hwb)
            intro x hx
            exact List.mem_append.2 (Or.inl hx)
          have hfd1 : FoodsDistinct keptRev :=
            FoodsDistinct_sublist (List.sublist_append_left keptRev [w]) hfd
          have hfin := install_workers_spec st1 keptRev hwb1 hfd1 hsf1
          refine ⟨hev1.trans hfin.1, hfin.2.1, hfin.2.2.1, hfin.2.2.2.1, ?_,
            fun h => hfin.2.2.2.2.2 (hnq1 h)⟩
          rw [hfin.2.2.2.2.1, hol1]
        | cons x rest' =>
          have hloop : workerLoop fitness step keptRev (w :: x :: rest') st g =
              workerLoop fitness step (x :: keptRev) rest' st1 g1 := by
            rw [workerLoop.eq_def]
            simp only [hr]
          rw [hloop]
          have hsub : (keptRev ++ x :: rest').Sublist (keptRev ++ w :: x :: rest') :=
            (List.sublist_cons_self w (x :: rest')).append_left keptRev
          have hwb1 : WorkersBound st1.store ((x :: keptRev) ++ rest') := by
            rw [List.cons_append]
            refine WorkersBound_mono hlen1 (WorkersBound_subset ?_ hwb)
            intro y hy
            have : y ∈ keptRev ++ x :: rest' := List.perm_middle.mem_iff.2 hy
            exact hsub.mem this
          have hfd1 : FoodsDistinct ((x :: keptRev) ++ rest') := by
            rw [List.cons_append]
            exact FoodsDistinct_perm List.perm_middle (FoodsDistinct_sublist hsub hfd)
          have hrest : rest'.length ≤ n := by
            have := hlen
            simp only [List.length_cons] at this
            omega
          have hih := ihn rest' hrest (x :: keptRev) st1 g1 hwb1 hfd1 hsf1
          exact ⟨hev1.trans hih.1, hih.2.1, hih.2.2.1, hih.2.2.2.1,
            hih.2.2.2.2.1.trans hol1, fun h => hih.2.2.2.2.2 (hnq1 h)⟩

/-- the worker phase preserves the structural invariant and can only improve
the best. -/
theorem workerPhase_spec (fitness : List ℚ → ℚ) (step : ℚ) (st : SearchState) (g : Rng)
    (hwb : WorkersBound st.store st.workers) (hfd : FoodsDistinct st.workers)
    (hsf : ScoutsFree st) :
    Ev st (workerPhase fitness step st g).1 ∧
    WorkersBound (workerPhase fitness step st g).1.store
      (workerPhase fitness step st g).1.workers ∧
    FoodsDistinct (workerPhase fitness step st g).1.workers ∧
    ScoutsFree (workerPhase fitness step st g).1 ∧
    (workerPhase fitness step st g).1.onlookers = st.onlookers ∧
    (NatQuantities st → NatQuantities (workerPhase fitness step st g).1) := by
  unfold workerPhase
  exact workerLoop_spec fitness step st.workers.length st.workers (le_refl _) [] st g
    (by simpa using hwb) (by simpa using hfd) hsf

theorem danceAt_ev (fitness : List ℚ → ℚ) (st : SearchState) (fid : Nat) :
    Ev st (danceAt fitness st fid).1 := by
  refine ⟨le_of_eq (danceAt_fields fitness st fid).2.2.2.2.symm,
    qualPres_danceAt fitness st fid, ?_⟩
  intro hb
  have h := bq_eq_of_qualPres (qualPres_danceAt fitness st fid)
    (danceAt_fields fitness st fid).2.2.2.1 hb
  exact ⟨h.1, le_of_eq h.2.symm⟩

/-- dancing the whole choreography only fills missing qualities. -/
theorem danceAll_spec (fitness : List ℚ → ℚ) :
    ∀ (ws : List Bee) (st : SearchState),
    Ev st (danceAll fitness st ws).1 ∧
    (danceAll fitness st ws).1.scouts = st.scouts ∧
    (danceAll fitness st ws).1.onlookers = st.onlookers ∧
    (danceAll fitness st ws).1.workers = st.workers ∧
    (danceAll fitness st ws).1.store.length = st.store.length ∧
    (NatQuantities st → NatQuantities (danceAll fitness st ws).1) := by
  intro ws
  induction ws with
  | nil =>
    intro st
    exact ⟨Ev.rfl st, rfl, rfl, rfl, rfl, fun h => h⟩
  | cons w ws ih =>
    intro st
    cases hw : w.food with
    | none =>
      have heq : danceAll fitness st (w :: ws) = danceAll fitness st ws := by
        rw [danceAll.eq_def]
        simp only [hw]
      rw [heq]
      exact ih st
    | some fid =>
      have heq : (danceAll fitness st (w :: ws)).1 =
          (danceAll fitness (danceAt fitness st fid).1 ws).1 := by
        rw [danceAll.eq_def]
        simp only [hw]
      rw [heq]
      have hd := danceAt_fields fitness st fid
      have hih := ih (danceAt fitness st fid).1
      refine ⟨(danceAt_ev fitness st fid).trans hih.1, ?_, ?_, ?_, ?_, ?_⟩
      · rw [hih.2.1, hd.1]
      · rw [hih.2.2.1, hd.2.1]
      · rw [hih.2.2.2.1, hd.2.2.1]
      · rw [hih.2.2.2.2.1, hd.2.2.2.2]
      · intro h
        exact hih.2.2.2.2.2 (natQ_danceAt fitness st fid h)

/-- everything the loop invariants need to know about one onlooker-phase
body. -/
theorem onlookerStep_spec (fitness : List ℚ → ℚ) (step : ℚ) (pairs : List (Nat × ℚ))
    (probs : Option (List ℚ)) (st : SearchState) (g : Rng) (o : Bee) (b : Bee)
    (st' : SearchState) (g' : Rng)
    (h : onlookerStep fitness step pairs probs st g o = (b, st', g')) :
    Ev st st' ∧ st'.workers = st.workers ∧ st'.onlookers = st.onlookers ∧
    st'.scouts = st.scouts ∧ (NatQuantities st → NatQuantities st') := by
  simp only [onlookerStep] at h
  set fid := (pairs.getD (g.choiceIdx pairs.length probs).1 (0, 0)).1 with hfid
  have hev1 : Ev st (danceAt fitness st fid).1 := danceAt_ev fitness st fid
  have hd1 := danceAt_fields fitness st fid
  have hnq1 : NatQuantities st → NatQuantities (danceAt fitness st fid).1 :=
    natQ_danceAt fitness st fid
  by_cases hcomp : fitness (look_around (g.choiceIdx pairs.length probs).2
      (getFood (danceAt fitness st fid).1 fid) step).1.location > (danceAt fitness st fid).2
  · rw [if_pos hcomp] at h
    simp only [Prod.mk.injEq] at h
    obtain ⟨h1, h2, h3⟩ := h
    have hspec := adopt_spec fitness (danceAt fitness st fid).1
      (look_around (g.choiceIdx pairs.length probs).2
        (getFood (danceAt fitness st fid).1 fid) step).1
      (look_around_parts _ _ _).1 (look_around_parts _ _ _).2 _ _ _ _ rfl rfl rfl rfl
    rw [h2] at hspec
    obtain ⟨hl, hqp, hwk, hol, hsc, hbm, hnq, _, _, _⟩ := hspec
    refine ⟨?_, by rw [hwk, hd1.2.2.1], by rw [hol, hd1.2.1], by rw [hsc, hd1.1],
      fun hq => hnq (hnq1 hq)⟩
    exact hev1.trans ⟨le_of_lt hl, hqp, hbm⟩
  · rw [if_neg hcomp] at h
    have hev2 : Ev st (addFood (danceAt fitness st fid).1
        (look_around (g.choiceIdx pairs.length probs).2
          (getFood (danceAt fitness st fid).1 fid) step).1).2 := by
      refine hev1.trans ⟨by rw [length_addFood]; exact Nat.le_succ _, qualPres_addFood _ _, ?_⟩
      intro hb
      have hq := bq_eq_of_qualPres
        (qualPres_addFood (danceAt fitness st fid).1
          (look_around (g.choiceIdx pairs.length probs).2
            (getFood (danceAt fitness st fid).1 fid) step).1)
        (addFood_fields (danceAt fitness st fid).1
          (look_around (g.choiceIdx pairs.length probs).2
            (getFood (danceAt fitness st fid).1 fid) step).1).2.2.2 hb
      exact ⟨hq.1, le_of_eq hq.2.symm⟩
    have hnq2 : NatQuantities st → NatQuantities (addFood (danceAt fitness st fid).1
        (look_around (g.choiceIdx pairs.length probs).2
          (getFood (danceAt fitness st fid).1 fid) step).1).2 := by
      intro hq
      exact natQ_addFood _ _ 0 (look_around_parts _ _ _).2 (hnq1 hq)
    generalize hst2eq : (addFood (danceAt fitness st fid).1
      (look_around (g.choiceIdx pairs.length probs).2
        (getFood (danceAt fitness st fid).1 fid) step).1).2 = st2 at *
    have hw2 : st2.workers = st.workers := by
      rw [← hst2eq, (addFood_fields _ _).2.2.1, hd1.2.2.1]
    have ho2 : st2.onlookers = st.onlookers := by
      rw [← hst2eq, (addFood_fields _ _).2.1, hd1.2.1]
    have hs2 : st2.scouts = st.scouts := by
      rw [← hst2eq, (addFood_fields _ _).1, hd1.1]
    -- the conditional deposit
    have hdep : Ev st2 (if (getFood st2 fid).has_food then bring_food st2 fid else st2) ∧
        (if (getFood st2 fid).has_food then bring_food st2 fid else st2).workers = st2.workers ∧
        (if (getFood st2 fid).has_food then bring_food st2 fid else st2).onlookers = st2.onlookers ∧
        (if (getFood st2 fid).has_food then bring_food st2 fid else st2).scouts = st2.scouts ∧
        (NatQuantities st2 →
          NatQuantities (if (getFood st2 fid).has_food then bring_food st2 fid else st2)) := by
      by_cases hhf : (getFood st2 fid).has_food
      · rw [if_pos hhf]
        have hbf := bring_food_fields st2 fid
        refine ⟨⟨le_of_eq (length_bring_food st2 fid).symm, qualPres_bring_food st2 fid, ?_⟩,
          hbf.2.2.1, hbf.2.1, hbf.1, natQ_bring_food st2 fid (ne_of_gt hhf)⟩
        intro hb
        have hq := bq_eq_of_qualPres (qualPres_bring_food st2 fid) hbf.2.2.2 hb
        exact ⟨hq.1, le_of_eq hq.2.symm⟩
      · rw [if_neg hhf]
        exact ⟨Ev.rfl st2, rfl, rfl, rfl, fun hq => hq⟩
    have hout : st' = (if (getFood st2 fid).has_food then bring_food st2 fid else st2) := by
      by_cases hex : (getFood (if (getFood st2 fid).has_food then bring_food st2 fid else st2)
          fid).is_exhausted
      · rw [if_pos hex] at h
        simp only [Prod.mk.injEq] at h
        exact h.2.1.symm
      · rw [if_neg hex] at h
        simp only [Prod.mk.injEq] at h
        exact h.2.1.symm
    rw [hout]
    refine ⟨hev2.trans hdep.1, ?_, ?_, ?_, ?_⟩
    · rw [hdep.2.1, hw2]
    · rw [hdep.2.2.1, ho2]
    · rw [hdep.2.2.2.1, hs2]
    · intro hq
      exact hdep.2.2.2.2 (hnq2 hq)

theorem onlookerLoop_spec (fitness : List ℚ → ℚ) (step : ℚ) (pairs : List (Nat × ℚ))
    (probs : Option (List ℚ)) :
    ∀ (suffix doneRev : List Bee) (st : SearchState) (g : Rng),
    Ev st (onlookerLoop fitness step pairs probs doneRev suffix st g).1 ∧
    (onlookerLoop fitness step pairs probs doneRev suffix st g).1.workers = st.workers ∧
    (onlookerLoop fitness step pairs probs doneRev suffix st g).1.scouts = st.scouts ∧
    (NatQuantities st →
      NatQuantities (onlookerLoop fitness step pairs probs doneRev suffix st g).1) := by
  intro suffix
  induction suffix with
  | nil =>
    intro doneRev st g
    rw [onlookerLoop]
    exact ⟨⟨le_refl _, fun j q h => h, fun hb => ⟨hb, le_refl _⟩⟩, rfl, rfl, fun h => h⟩
  | cons o os ih =>
    intro doneRev st g
    rcases hr : onlookerStep fitness step pairs probs st g o with ⟨b, st1, g1⟩
    have hstep := onlookerStep_spec fitness step pairs probs st g o b st1 g1 hr
    have hloop : onlookerLoop fitness step pairs probs doneRev (o :: os) st g =
        onlookerLoop fitness step pairs probs (b :: doneRev) os st1 g1 := by
      rw [onlookerLoop.eq_def]
      simp only [hr]
    rw [hloop]
    have hih := ih (b :: doneRev) st1 g1
    exact ⟨hstep.1.trans hih.1, hih.2.1.trans hstep.2.1, hih.2.2.1.trans hstep.2.2.2.1,
      fun h => hih.2.2.2 (hstep.2.2.2.2 h)⟩

/-- the onlooker phase leaves workers and scouts untouched, only grows the
store, and can only improve the best. -/
theorem onlookerPhase_spec (fitness : List ℚ → ℚ) (step : ℚ) (st : SearchState) (g : Rng) :
    Ev st (onlookerPhase fitness step st g).1 ∧
    (onlookerPhase fitness step st g).1.workers = st.workers ∧
    (onlookerPhase fitness step st g).1.scouts = st.scouts ∧
    (NatQuantities st → NatQuantities (onlookerPhase fitness step st g).1) := by
  rw [onlookerPhase]
  by_cases hemp : st.workers.isEmpty
  · rw [if_pos hemp]
    exact ⟨Ev.rfl st, rfl, rfl, fun h => h⟩
  · rw [if_neg hemp]
    have hda := danceAll_spec fitness st.workers st
    have hll := onlookerLoop_spec fitness step (danceAll fitness st st.workers).2
      (rouletteProbs ((danceAll fitness st st.workers).2.map (fun p => p.2)))
      (danceAll fitness st st.workers).1.onlookers []
      (danceAll fitness st st.workers).1 g
    refine ⟨hda.1.trans hll.1, hll.2.1.trans hda.2.2.2.1, hll.2.2.1.trans hda.2.1,
      fun h => hll.2.2.2 (hda.2.2.2.2.2 h)⟩

/-- one scout-phase body: a fresh food with the configured limit quantity
and a fresh worker bound to it. -/
theorem scoutStep_spec (limit : ℚ) (lo hi : List ℚ) (st : SearchState) (g : Rng) :
    Ev st (scoutStep limit lo hi st g).1 ∧
    (scoutStep limit lo hi st g).1.scouts = st.scouts ∧
    (scoutStep limit lo hi st g).1.onlookers = st.onlookers ∧
    (scoutStep limit lo hi st g).1.workers =
      st.workers ++ [{ food := some st.store.length }] ∧
    (scoutStep limit lo hi st g).1.store.length = st.store.length + 1 ∧
    ((∃ L : Nat, limit = (L : ℚ)) → NatQuantities st →
      NatQuantities (scoutStep limit lo hi st g).1) := by
  rw [scoutStep]
  have hadd := addFood_fields st ⟨(g.uniformVec lo hi).1, none, limit⟩
  have hqp : QualPres st (addFood st ⟨(g.uniformVec lo hi).1, none, limit⟩).2 :=
    qualPres_addFood st _
  refine ⟨⟨?_, ?_, ?_⟩, ?_, ?_, ?_, ?_, ?_⟩
  · show st.store.length ≤ (addFood st _).2.store.length
    rw [length_addFood]
    exact Nat.le_succ _
  · intro j q hj
    exact hqp j q hj
  · intro hb
    have hbe : ({ (addFood st ⟨(g.uniformVec lo hi).1, none, limit⟩).2 with
        workers := (addFood st ⟨(g.uniformVec lo hi).1, none, limit⟩).2.workers ++
          [{ food := some (addFood st ⟨(g.uniformVec lo hi).1, none, limit⟩).1 }] } :
        SearchState).best = st.best := hadd.2.2.2
    have hq := bq_eq_of_qualPres (fun j q hj => hqp j q hj) hbe hb
    exact ⟨hq.1, le_of_eq hq.2.symm⟩
  · exact hadd.1
  · exact hadd.2.1
  · show (addFood st _).2.workers ++ _ = st.workers ++ _
    rw [hadd.2.2.1]
    rfl
  · show (addFood st _).2.store.length = _
    rw [length_addFood]
  · rintro ⟨L, hL⟩ hq
    exact natQ_addFood st _ L hL hq

theorem install_scouts_spec (st : SearchState) (keptRev : List Bee)
    (hall : ∀ s ∈ keptRev, s.food = none) (hwb : WorkersBound st.store st.workers)
    (hfd : FoodsDistinct st.workers) :
    Ev st { st with scouts := keptRev.reverse } ∧
    WorkersBound ({ st with scouts := keptRev.reverse } : SearchState).store
      ({ st with scouts := keptRev.reverse } : SearchState).workers ∧
    FoodsDistinct ({ st with scouts := keptRev.reverse } : SearchState).workers ∧
    ScoutsFree { st with scouts := keptRev.reverse } ∧
    ({ st with scouts := keptRev.reverse } : SearchState).onlookers = st.onlookers ∧
    (NatQuantities st → NatQuantities { st with scouts := keptRev.reverse }) := by
  refine ⟨⟨le_refl _, fun j q h => h, fun hb => ⟨hb, le_refl _⟩⟩, hwb, hfd, ?_, rfl, fun h => h⟩
  intro s hs
  exact hall s (List.mem_reverse.1 hs)

/-- invariant preservation through the scout-phase loop: every processed
scout becomes a fresh worker on a fresh food, and the skipped scouts keep
holding no food. -/
theorem scoutLoop_spec (limit : ℚ) (lo hi : List ℚ) :
    ∀ (n : Nat) (suffix : List Bee), suffix.length ≤ n →
    ∀ (keptRev : List Bee) (st : SearchState) (g : Rng),
      WorkersBound st.store st.workers → FoodsDistinct st.workers →
      (∀ s ∈ keptRev ++ suffix, s.food = none) →
      Ev st (scoutLoop limit lo hi keptRev suffix st g).1 ∧
      WorkersBound (scoutLoop limit lo hi keptRev suffix st g).1.store
        (scoutLoop limit lo hi keptRev suffix st g).1.workers ∧
      FoodsDistinct (scoutLoop limit lo hi keptRev suffix st g).1.workers ∧
      ScoutsFree (scoutLoop limit lo hi keptRev suffix st g).1 ∧
      (scoutLoop limit lo hi keptRev suffix st g).1.onlookers = st.onlookers ∧
      ((∃ L : Nat, limit = (L : ℚ)) → NatQuantities st →
        NatQuantities (scoutLoop limit lo hi keptRev suffix st g).1) := by
  intro n
  induction n with
  | zero =>
    intro suffix hlen keptRev st g hwb hfd hall
    have hnil : suffix = [] := List.eq_nil_of_length_eq_zero (Nat.le_zero.1 hlen)
    subst hnil
    rw [scoutLoop]
    have := install_scouts_spec st keptRev (by simpa using hall) hwb hfd
    exact ⟨this.1, this.2.1, this.2.2.1, this.2.2.2.1, this.2.2.2.2.1,
      fun _ h => this.2.2.2.2.2 h⟩
  | succ n ihn =>
    intro suffix hlen keptRev st g hwb hfd hall
    cases suffix with
    | nil =>
      rw [scoutLoop]
      have := install_scouts_spec st keptRev (by simpa using hall) hwb hfd
      exact ⟨this.1, this.2.1, this.2.2.1, this.2.2.2.1, this.2.2.2.2.1,
        fun _ h => this.2.2.2.2.2 h⟩
    | cons s rest =>
      have hstep := scoutStep_spec limit lo hi st g
      obtain ⟨hev1, hsc1, hol1, hwk1, hlen1, hnq1⟩ := hstep
      -- the new worker list is still bounded and distinct
      have hwb1 : WorkersBound (scoutStep limit lo hi st g).1.store
          (scoutStep limit lo hi st g).1.workers := by
        rw [hwk1]
        intro x hx
        rcases List.mem_append.1 hx with hk | hk
        · rcases hwb x hk with ⟨fid, hf1, hf2⟩
          exact ⟨fid, hf1, by omega⟩
        · rw [List.mem_singleton.1 hk]
          exact ⟨st.store.length, rfl, by omega⟩
      have hfd1 : FoodsDistinct (scoutStep limit lo hi st g).1.workers := by
        rw [hwk1]
        unfold FoodsDistinct
        have hperm : (st.workers ++ [({ food := some st.store.length } : Bee)]).Perm
            (({ food := some st.store.length } : Bee) :: st.workers) :=
          List.perm_append_singleton _ _
        refine (hperm.filterMap Bee.food).symm.nodup ?_
        rw [List.filterMap_cons]
        simp only []
        rw [List.nodup_cons]
        refine ⟨?_, hfd⟩
        intro hmem
        rcases List.mem_filterMap.1 hmem with ⟨x, hx, hxf⟩
        rcases hwb x hx with ⟨fid, hf1, hf2⟩
        rw [hxf, Option.some.injEq] at hf1
        omega
      cases rest with
      | nil =>
        have hloop : scoutLoop limit lo hi keptRev [s] st g =
            ({ (scoutStep limit lo hi st g).1 with scouts := keptRev.reverse },
              (scoutStep limit lo hi st g).2) := by
          rw [scoutLoop.eq_def]
        rw [hloop]
        have hallk : ∀ x ∈ keptRev, x.food = none := by
          intro x hx
          exact hall x (List.mem_append.2 (Or.inl hx))
        have hfin := install_scouts_spec (scoutStep limit lo hi st g).1 keptRev hallk hwb1 hfd1
        refine ⟨hev1.trans hfin.1, hfin.2.1, hfin.2.2.1, hfin.2.2.2.1, ?_, ?_⟩
        · rw [hfin.2.2.2.2.1, hol1]
        · intro hL h
          exact hfin.2.2.2.2.2 (hnq1 hL h)
      | cons x rest' =>
        have hloop : scoutLoop limit lo hi keptRev (s :: x :: rest') st g =
            scoutLoop limit lo hi (x :: keptRev) rest'
              (scoutStep limit lo hi st g).1 (scoutStep limit lo hi st g).2 := by
          rw [scoutLoop.eq_def]
        rw [hloop]
        have hrest : rest'.length ≤ n := by
          have := hlen
          simp only [List.length_cons] at this
          omega
        have hall1 : ∀ y ∈ (x :: keptRev) ++ rest', y.food = none := by
          intro y hy
          have hy' : y = x ∨ y ∈ keptRev ∨ y ∈ rest' := by simpa using hy
          rcases hy' with rfl | hk | hk
          · exact hall y (List.mem_append.2 (Or.inr (by simp)))
          · exact hall y (List.mem_append.2 (Or.inl hk))
          · exact hall y (List.mem_append.2 (Or.inr (by simp [hk])))
        have hih := ihn rest' hrest (x :: keptRev) (scoutStep limit lo hi st g).1
          (scoutStep limit lo hi st g).2 hwb1 hfd1 hall1
        refine ⟨hev1.trans hih.1, hih.2.1, hih.2.2.1, hih.2.2.2.1, ?_, ?_⟩
        · rw [hih.2.2.2.2.1, hol1]
        · intro hL h
          exact hih.2.2.2.2.2 hL (hnq1 hL h)

/-- the scout phase preserves the structural invariant; with a natural
`limit` it also keeps every quantity natural. -/
theorem scoutPhase_spec (limit : ℚ) (lo hi : List ℚ) (st : SearchState) (g : Rng)
    (hwb : WorkersBound st.store st.workers) (hfd : FoodsDistinct st.workers)
    (hsf : ScoutsFree st) :
    Ev st (scoutPhase limit lo hi st g).1 ∧
    WorkersBound (scoutPhase limit lo hi st g).1.store
      (scoutPhase limit lo hi st g).1.workers ∧
    FoodsDistinct (scoutPhase limit lo hi st g).1.workers ∧
    ScoutsFree (scoutPhase limit lo hi st g).1 ∧
    (scoutPhase limit lo hi st g).1.onlookers = st.onlookers ∧
    ((∃ L : Nat, limit = (L : ℚ)) → NatQuantities st →
      NatQuantities (scoutPhase limit lo hi st g).1) := by
  unfold scoutPhase
  exact scoutLoop_spec limit lo hi st.scouts.length st.scouts (le_refl _) [] st g hwb hfd
    (by simpa using hsf)

/-! ## Whole-iteration and initialization invariants -/

theorem workerPhase_invA (fitness : List ℚ → ℚ) (step : ℚ) (st : SearchState) (g : Rng)
    (h : InvA st) :
    InvA (workerPhase fitness step st g).1 ∧ Ev st (workerPhase fitness step st g).1 ∧
    (NatQuantities st → NatQuantities (workerPhase fitness step st g).1) := by
  obtain ⟨hwb, hfd, hsf, hbs⟩ := h
  have hs := workerPhase_spec fitness step st g hwb hfd hsf
  exact ⟨⟨hs.2.1, hs.2.2.1, hs.2.2.2.1, (hs.1.2.2 hbs).1⟩, hs.1, hs.2.2.2.2.2⟩

theorem onlookerPhase_invA (fitness : List ℚ → ℚ) (step : ℚ) (st : SearchState) (g : Rng)
    (h : InvA st) :
    InvA (onlookerPhase fitness step st g).1 ∧ Ev st (onlookerPhase fitness step st g).1 ∧
    (NatQuantities st → NatQuantities (onlookerPhase fitness step st g).1) := by
  obtain ⟨hwb, hfd, hsf, hbs⟩ := h
  have hs := onlookerPhase_spec fitness step st g
  refine ⟨⟨?_, ?_, ?_, (hs.1.2.2 hbs).1⟩, hs.1, hs.2.2.2⟩
  · rw [hs.2.1]
    exact WorkersBound_mono hs.1.1 hwb
  · rw [hs.2.1]
    exact hfd
  · intro s hsm
    rw [hs.2.2.1] at hsm
    exact hsf s hsm

theorem scoutPhase_invA (limit : ℚ) (lo hi : List ℚ) (st : SearchState) (g : Rng)
    (h : InvA st) :
    InvA (scoutPhase limit lo hi st g).1 ∧ Ev st (scoutPhase limit lo hi st g).1 ∧
    ((∃ L : Nat, limit = (L : ℚ)) → NatQuantities st →
      NatQuantities (scoutPhase limit lo hi st g).1) := by
  obtain ⟨hwb, hfd, hsf, hbs⟩ := h
  have hs := scoutPhase_spec limit lo hi st g hwb hfd hsf
  exact ⟨⟨hs.2.1, hs.2.2.1, hs.2.2.2.1, (hs.1.2.2 hbs).1⟩, hs.1, hs.2.2.2.2.2⟩

theorem iterOnce_spec (fitness : List ℚ → ℚ) (step limit : ℚ) (lo hi : List ℚ)
    (st : SearchState) (g : Rng) (h : InvA st) :
    InvA (iterOnce fitness step limit lo hi st g).1 ∧
    Ev st (iterOnce fitness step limit lo hi st g).1 ∧
    ((∃ L : Nat, limit = (L : ℚ)) → NatQuantities st →
      NatQuantities (iterOnce fitness step limit lo hi st g).1) := by
  rw [iterOnce]
  have h1 := workerPhase_invA fitness step st g h
  have h2 := onlookerPhase_invA fitness step (workerPhase fitness step st g).1
    (workerPhase fitness step st g).2 h1.1
  have h3 := scoutPhase_invA limit lo hi
    (onlookerPhase fitness step (workerPhase fitness step st g).1
      (workerPhase fitness step st g).2).1
    (onlookerPhase fitness step (workerPhase fitness step st g).1
      (workerPhase fitness step st g).2).2 h2.1
  exact ⟨h3.1, (h1.2.1.trans h2.2.1).trans h3.2.1,
    fun hL hq => h3.2.2 hL (h2.2.2 (h1.2.2 hq))⟩

theorem generate_new_food_facts (lo hi : List ℚ) (quantity : ℚ) :
    ∀ (count : Nat) (g : Rng),
    (generate_new_food g lo hi count quantity).1.length = count ∧
    ∀ f ∈ (generate_new_food g lo hi count quantity).1,
      f.quality = none ∧ f.quantity = quantity := by
  intro count
  induction count with
  | zero => intro g; simp [generate_new_food]
  | succ k ih =>
    intro g
    rw [generate_new_food]
    refine ⟨?_, ?_⟩
    · simp only [List.length_cons]
      rw [(ih _).1]
    · intro f hf
      rcases List.mem_cons.1 hf with rfl | hf'
      · exact ⟨rfl, rfl⟩
      · exact (ih _).2 f hf'

theorem dance_quality_isSome (f : Food) (fitness : List ℚ → ℚ) :
    (((f.dance fitness).1).quality).isSome := by
  cases hq : f.quality <;> simp [Food.dance, hq]

theorem dance_quantity (f : Food) (fitness : List ℚ → ℚ) :
    ((f.dance fitness).1).quantity = f.quantity := by
  cases hq : f.quality <;> simp [Food.dance, hq]

theorem foldl_best_mem (st : SearchState) :
    ∀ (ws : List Bee) (w : Bee),
      ws.foldl (fun acc x => if qualAt st x > qualAt st acc then x else acc) w ∈ w :: ws := by
  intro ws
  induction ws with
  | nil => intro w; simp
  | cons y ys ih =>
    intro w
    rw [List.foldl_cons]
    rcases Decidable.em (qualAt st y > qualAt st w) with hc | hc
    · rw [if_pos hc]
      exact List.mem_cons_of_mem w (ih y)
    · rw [if_neg hc]
      rcases List.mem_cons.1 (ih w) with hh | hh
      · rw [hh]
        exact List.mem_cons_self w _
      · exact List.mem_cons_of_mem w (List.mem_cons_of_mem y hh)

/-- the initial best (the first worker whose quality is maximal) is one of
the workers. -/
theorem bestWorkerFid_mem_or (st : SearchState) :
    st.workers = [] ∨ ∃ w ∈ st.workers, bestWorkerFid st = w.food.getD 0 := by
  rw [bestWorkerFid]
  cases hws : st.workers with
  | nil => exact Or.inl rfl
  | cons w ws =>
    refine Or.inr ⟨ws.foldl (fun acc x => if qualAt st x > qualAt st acc then x else acc) w,
      ?_, rfl⟩
    exact foldl_best_mem st ws w

/-- what holds of the state produced by the initialization. -/
theorem beeSearchInit_spec (fitness : List ℚ → ℚ) (lo hi : List ℚ) (nW nO nS : Nat)
    (limit : ℚ) (g : Rng) (st' : SearchState) (g' : Rng)
    (h : beeSearchInit fitness lo hi nW nO nS limit g = some (st', g')) :
    InvA st' ∧ ((∃ L : Nat, limit = (L : ℚ)) → NatQuantities st') := by
  rw [beeSearchInit] at h
  by_cases hnw : nW = 0
  · rw [if_pos hnw] at h
    exact absurd h (by simp)
  · rw [if_neg hnw] at h
    rw [Option.some.injEq, Prod.mk.injEq] at h
    obtain ⟨h1, _⟩ := h
    subst h1
    have hgen := generate_new_food_facts lo hi limit nW g
    have hlenst : ((generate_new_food g lo hi nW limit).1.map
        (fun f => (f.dance fitness).1)).length = nW := by
      rw [List.length_map, hgen.1]
    -- quality of every stored food is disclosed at initialization
    have hqual : ∀ k, k < nW →
        ∀ st0 : SearchState, st0.store = (generate_new_food g lo hi nW limit).1.map
          (fun f => (f.dance fitness).1) →
        ((getFood st0 k).quality).isSome := by
      intro k hk st0 hst0
      have hkg : k < (generate_new_food g lo hi nW limit).1.length := by
        rw [hgen.1]; exact hk
      have h1 : st0.store[k]? = some (((generate_new_food g lo hi nW limit).1[k]).dance
          fitness).1 := by
        rw [hst0, List.getElem?_map, List.getElem?_eq_getElem hkg]
        rfl
      unfold getFood
      rw [h1]
      exact dance_quality_isSome _ fitness
    constructor
    · refine ⟨?_, ?_, ?_, ?_⟩
      · intro w hw
        rcases List.mem_map.1 hw with ⟨k, hk, rfl⟩
        exact ⟨k, rfl, by rw [hlenst]; exact List.mem_range.1 hk⟩
      · unfold FoodsDistinct
        rw [List.filterMap_map]
        have hcomp : (Bee.food ∘ fun k : Nat => ({ food := some k } : Bee)) = some := rfl
        rw [hcomp, List.filterMap_some]
        exact List.nodup_range nW
      · intro s hsm
        rcases List.eq_of_mem_replicate hsm with rfl
        rfl
      · rcases bestWorkerFid_mem_or
            { store := (generate_new_food g lo hi nW limit).1.map (fun f => (f.dance fitness).1)
              scouts := List.replicate nS { food := none }
              onlookers := List.replicate nO { food := none }
              workers := (List.range nW).map (fun k => ({ food := some k } : Bee))
              best := 0 } with hemp | ⟨w, hwmem, hfeq⟩
        · exfalso
          have : nW = 0 := by
            have := congrArg List.length hemp
            simpa using this
          exact hnw this
        · show ((getFood _ (bestWorkerFid _)).quality).isSome
          rw [hfeq]
          rcases List.mem_map.1 hwmem with ⟨k, hk, hkeq⟩
          rw [← hkeq]
          show ((getFood _ ((Bee.mk (some k)).food.getD 0)).quality).isSome
          exact hqual k (List.mem_range.1 hk) _ rfl
    · rintro ⟨L, hL⟩ f hf
      rcases List.mem_map.1 hf with ⟨f0, hf0, rfl⟩
      refine ⟨L, ?_⟩
      rw [dance_quantity, (hgen.2 f0 hf0).2, hL]

/-- every stable point satisfies the structural invariant; with a natural
`limit` its quantities are all natural. -/
theorem stable_inv (fitness : List ℚ → ℚ) (step limit : ℚ) (lo hi : List ℚ)
    (nW nO nS : Nat) (g0 : Rng) (st : SearchState) (g : Rng)
    (hst : Stable fitness step limit lo hi nW nO nS g0 st g) :
    InvA st ∧ ((∃ L : Nat, limit = (L : ℚ)) → NatQuantities st) := by
  induction hst with
  | init st g h => exact beeSearchInit_spec fitness lo hi nW nO nS limit g0 st g h
  | workerP st g h ih =>
    have hs := workerPhase_invA fitness step st g ih.1
    exact ⟨hs.1, fun hL => hs.2.2 (ih.2 hL)⟩
  | onlookerP st g h ih =>
    have hs := onlookerPhase_invA fitness step st g ih.1
    exact ⟨hs.1, fun hL => hs.2.2 (ih.2 hL)⟩
  | scoutP st g h ih =>
    have hs := scoutPhase_invA limit lo hi st g ih.1
    exact ⟨hs.1, fun hL => hs.2.2 hL (ih.2 hL)⟩

theorem filterMap_length_of_all_some :
    ∀ (l : List Bee), (∀ x ∈ l, (Bee.food x).isSome) →
      (l.filterMap Bee.food).length = l.length := by
  intro l
  induction l with
  | nil => intro _; rfl
  | cons x xs ih =>
    intro hall
    rcases Option.isSome_iff_exists.1 (hall x (by simp)) with ⟨fid, hfid⟩
    rw [List.filterMap_cons]
    simp only [hfid]
    rw [List.length_cons, ih (fun y hy => hall y (List.mem_cons_of_mem x hy))]
    rfl

/-- along a run, the yielded best qualities form a non-decreasing chain
anchored at the current best, and every yielded best has its quality set. -/
theorem runFrom_chain (fitness : List ℚ → ℚ) (step limit : ℚ) (lo hi : List ℚ) :
    ∀ (k i : Nat) (st : SearchState) (g : Rng), InvA st →
      List.Chain' (fun a b => a ≤ b)
        (bq st :: (runFrom fitness step limit lo hi i k st g).1.map
          (fun p => ((p.2.quality)).getD 0)) ∧
      (∀ p ∈ (runFrom fitness step limit lo hi i k st g).1, ((p.2.quality)).isSome) := by
  intro k
  induction k with
  | zero =>
    intro i st g _
    rw [runFrom]
    exact ⟨List.chain'_singleton _, by simp⟩
  | succ k ih =>
    intro i st g h
    have hit := iterOnce_spec fitness step limit lo hi st g h
    have hloop : runFrom fitness step limit lo hi i (k + 1) st g =
        ((i, getFood (iterOnce fitness step limit lo hi st g).1
            (iterOnce fitness step limit lo hi st g).1.best) ::
          (runFrom fitness step limit lo hi (i + 1) k
            (iterOnce fitness step limit lo hi st g).1
            (iterOnce fitness step limit lo hi st g).2).1,
          (runFrom fitness step limit lo hi (i + 1) k
            (iterOnce fitness step limit lo hi st g).1
            (iterOnce fitness step limit lo hi st g).2).2) := by
      rw [runFrom]
    have hih := ih (i + 1) (iterOnce fitness step limit lo hi st g).1
      (iterOnce fitness step limit lo hi st g).2 hit.1
    rw [hloop]
    constructor
    · rw [List.map_cons]
      rw [List.chain'_cons]
      constructor
      · show bq st ≤ ((getFood (iterOnce fitness step limit lo hi st g).1
            (iterOnce fitness step limit lo hi st g).1.best).quality).getD 0
        exact (hit.2.1.2.2 h.2.2.2).2
      · exact hih.1
    · intro p hp
      rcases List.mem_cons.1 hp with rfl | hp'
      · exact hit.1.2.2.2
      · exact hih.2 p hp'

/-- a successful `bee_search` run is `runFrom` from a state satisfying the
structural invariant. -/
theorem beeSearch_ok_inv (objFunc : List ℚ → ℚ) (space : List (List ℚ))
    (minimize : Bool) (nBees : Nat) (nWorkers : Option Nat) (nScouts maxIter : Nat)
    (limit step : ℚ) (g : Rng) (snaps : List (Nat × Food))
    (hok : beeSearch objFunc space minimize nBees nWorkers nScouts maxIter limit step g =
      Except.ok snaps) :
    ∃ (fitness : List ℚ → ℚ) (lo hi : List ℚ) (st0 : SearchState) (g0 : Rng),
      InvA st0 ∧ snaps = (runFrom fitness step limit lo hi 0 maxIter st0 g0).1 := by
  rw [beeSearch, beeSearchWith] at hok
  cases hval : validateSearchSpace space with
  | error e => simp only [hval] at hok; exact absurd hok (by simp)
  | ok u =>
    simp only [hval] at hok
    cases hunp : unpackBounds space with
    | error e => simp only [hunp] at hok; exact absurd hok (by simp)
    | ok lohi =>
      simp only [hunp] at hok
      cases hinit : beeSearchInit
          (if minimize then fun v => -1 * objFunc v else objFunc) lohi.1 lohi.2
          (nWorkers.getD (nBees / 2)) (nBees - nWorkers.getD (nBees / 2)) nScouts limit g with
      | none => simp only [hinit] at hok; exact absurd hok (by simp)
      | some sg =>
        simp only [hinit, Except.ok.injEq] at hok
        refine ⟨(if minimize then fun v => -1 * objFunc v else objFunc), lohi.1, lohi.2,
          sg.1, sg.2, ?_, hok.symm⟩
        exact (beeSearchInit_spec _ lohi.1 lohi.2 _ _ nScouts limit g sg.1 sg.2
          (by rw [hinit])).1

theorem roleInv_of_invA (st : SearchState) (h : InvA st) : RoleInv st := by
  obtain ⟨hwb, hfd, hsf, _⟩ := h
  refine ⟨?_, hsf, ?_⟩
  · intro w hw
    rcases hwb w hw with ⟨fid, h1, _⟩
    rw [h1]
    rfl
  · rw [activeFoodSources, List.Nodup.dedup hfd]
    exact (filterMap_length_of_all_some st.workers (fun x hx => by
      rcases hwb x hx with ⟨fid, h1, _⟩
      rw [h1]
      rfl)).symm

/-! ## The claims -/

/-- a simple concrete pseudo-random source used in concrete evaluations. -/
def rng0 : Rng := ⟨fun _ => 0, fun _ => 1 / 2, 0, 0⟩

/-- C2: the scout phase removes scouts from the very list it is iterating,
so the iterator skips every other scout: entering the phase with two scouts
in the scouts collection, only the first is converted to a worker; one scout
remains in the scouts collection after the phase (the claim expects zero
remaining and two new workers). -/
theorem scout_phase_skips_second_scout :
    ((scoutPhase 1 [0] [1]
      ⟨[], [{ food := none }, { food := none }], [], [], 0⟩ rng0).1.scouts.length = 1) ∧
    ((scoutPhase 1 [0] [1]
      ⟨[], [{ food := none }, { food := none }], [], [], 0⟩ rng0).1.workers.length = 1) := by
  exact ⟨rfl, rfl⟩

/-- C3 counterexample: a 3-row, 2-column descriptor passes the shape check
(the second axis has length 2) and therefore raises no validation error, yet
`bee_search` does not run on it: `generate_new_food` fails to unpack its
three rows into the two bound rows. -/
theorem nx2_layout_not_accepted :
    validateSearchSpace [[0, 1], [0, 1], [0, 1]] = Except.ok () ∧
    beeSearch (fun v => v.headD 0) [[0, 1], [0, 1], [0, 1]] false 2 (some 1) 1 2 2 1 rng0 =
      Except.error "values to unpack (expected 2)" := by
  exact ⟨rfl, rfl⟩

/-- C3 amended: the descriptive validation error is raised exactly when
neither axis of the descriptor has length 2, and in that case `bee_search`
fails with it before any iteration; the search itself only proceeds past the
bound-row unpacking on descriptors with exactly two rows (the 2×N layout). -/
theorem searchSpace_validation (objFunc : List ℚ → ℚ) (space : List (List ℚ))
    (minimize : Bool) (nBees : Nat) (nWorkers : Option Nat) (nScouts maxIter : Nat)
    (limit step : ℚ) (g : Rng) :
    (validateSearchSpace space = Except.error validationMessage ↔
      ((space.headD []).length ≠ 2 ∧ space.length ≠ 2)) ∧
    (((space.headD []).length ≠ 2 ∧ space.length ≠ 2) →
      beeSearch objFunc space minimize nBees nWorkers nScouts maxIter limit step g =
        Except.error validationMessage) ∧
    ((∃ lo hi, unpackBounds space = Except.ok (lo, hi)) ↔ space.length = 2) := by
  have hval : ∀ h : (space.headD []).length ≠ 2 ∧ space.length ≠ 2,
      validateSearchSpace space = Except.error validationMessage := by
    intro h
    rw [validateSearchSpace, if_pos h]
  refine ⟨⟨?_, hval⟩, ?_, ?_, ?_⟩
  · intro h
    by_contra hc
    rw [validateSearchSpace, if_neg hc] at h
    exact absurd h (by simp)
  · intro h
    rw [beeSearch, beeSearchWith, hval h]
  · rintro ⟨lo, hi, h⟩
    match space, h with
    | [lo', hi'], _ => rfl
  · intro h
    match space, h with
    | [lo', hi'], _ => exact ⟨lo', hi', rfl⟩

/-- witness for the C3 amended statement on a 3×3 descriptor: the validation
error fires there before any iteration. -/
theorem searchSpace_validation_witness :
    validateSearchSpace [[0, 0, 0], [0, 0, 0], [0, 0, 0]] =
      Except.error validationMessage ∧
    beeSearch (fun v => v.headD 0) [[0, 0, 0], [0, 0, 0], [0, 0, 0]] false 2 (some 1) 1 2 2 1
      rng0 = Except.error validationMessage :=
  ⟨(searchSpace_validation (fun v => v.headD 0) [[0, 0, 0], [0, 0, 0], [0, 0, 0]] false 2
      (some 1) 1 2 2 1 rng0).1.2 (by norm_num),
    (searchSpace_validation (fun v => v.headD 0) [[0, 0, 0], [0, 0, 0], [0, 0, 0]] false 2
      (some 1) 1 2 2 1 rng0).2.1 (by norm_num)⟩

/-- C4: `look_around(step)` draws one coordinate index below the dimension
and one offset `u` in `[-0.5, 0.5)`, and returns a fresh food equal to the
original location except that the chosen coordinate `c` becomes
`c + c + step * u`, with no quality set and zero quantity. -/
theorem look_around_spec (g : Rng) (f : Food) (step : ℚ) (hne : f.location ≠ []) :
    ∃ i u, i < f.location.length ∧ -(1 / 2) ≤ u ∧ u < 1 / 2 ∧
      (look_around g f step).1.location =
        f.location.set i (f.location.getD i 0 + f.location.getD i 0 + step * u) ∧
      (∀ j, j ≠ i → (look_around g f step).1.location.getD j 0 = f.location.getD j 0) ∧
      (look_around g f step).1.quality = none ∧ (look_around g f step).1.quantity = 0 := by
  have hpos : 0 < f.location.length := List.length_pos.2 hne
  refine ⟨g.nats g.n % f.location.length,
    -(1 / 2) + (1 / 2 - -(1 / 2)) * fract (g.reals g.r), Nat.mod_lt _ hpos, ?_, ?_, ?_, ?_,
    rfl, rfl⟩
  · have h0 : (0 : ℚ) ≤ fract (g.reals g.r) := Int.fract_nonneg (g.reals g.r)
    nlinarith
  · have h1 : fract (g.reals g.r) < 1 := Int.fract_lt_one (g.reals g.r)
    nlinarith
  · show (single g f.location step).1 = _
    rw [single]
    simp only [Rng.integers, Rng.uniform, Rng.nextNat, Rng.nextReal]
    rw [add_assoc]
  · intro j hj
    show ((single g f.location step).1).getD j 0 = _
    rw [single]
    simp only [Rng.integers, Rng.nextNat]
    simp [List.getD_eq_getElem?_getD, List.getElem?_set_ne (Ne.symm hj)]

/-- witness for C4 at a concrete food and draw. -/
theorem look_around_spec_witness :
    ∃ i u, i < (Food.mk [1, 2] none 0).location.length ∧ -(1 / 2) ≤ u ∧ u < 1 / 2 ∧
      (look_around rng0 (Food.mk [1, 2] none 0) 1).1.location =
        (Food.mk [1, 2] none 0).location.set i
          ((Food.mk [1, 2] none 0).location.getD i 0 +
            (Food.mk [1, 2] none 0).location.getD i 0 + 1 * u) ∧
      (∀ j, j ≠ i → (look_around rng0 (Food.mk [1, 2] none 0) 1).1.location.getD j 0 =
        (Food.mk [1, 2] none 0).location.getD j 0) ∧
      (look_around rng0 (Food.mk [1, 2] none 0) 1).1.quality = none ∧
      (look_around rng0 (Food.mk [1, 2] none 0) 1).1.quantity = 0 :=
  look_around_spec rng0 (Food.mk [1, 2] none 0) 1 (by decide)

/-- C5: the onlooker-phase probabilities are the absolute qualities
normalized by their sum and add up to 1 whenever that sum is non-zero; when
the sum is zero no probability vector is built (so nothing is divided by
zero) and the source choice falls back to the uniform draw. -/
theorem rouletteProbs_spec (qualities : List ℚ) :
    (((qualities.map (fun q => |q|)).sum ≠ 0) →
      rouletteProbs qualities = some ((qualities.map (fun q => |q|)).map
        (fun x => x / (qualities.map (fun q => |q|)).sum)) ∧
      ((qualities.map (fun q => |q|)).map
        (fun x => x / (qualities.map (fun q => |q|)).sum)).sum = 1) ∧
    (((qualities.map (fun q => |q|)).sum = 0) →
      rouletteProbs qualities = none ∧
      ∀ (g : Rng) (pairs : List (Nat × ℚ)),
        (g.choiceIdx pairs.length (rouletteProbs qualities)).1 =
          g.nats g.n % pairs.length) := by
  constructor
  · intro hs
    constructor
    · rw [rouletteProbs]
      simp only [if_neg hs]
    · have hdiv : ∀ l : List ℚ, ∀ s : ℚ, (l.map (fun x => x / s)).sum = l.sum / s := by
        intro l s
        have : (fun x : ℚ => x / s) = fun x : ℚ => x * s⁻¹ := by
          funext x
          rw [div_eq_mul_inv]
        rw [this, List.sum_map_mul_right, List.map_id']
        rw [div_eq_mul_inv]
      rw [hdiv]
      exact div_self hs
  · intro hs
    constructor
    · rw [rouletteProbs]
      simp only [if_pos hs]
    · intro g pairs
      rw [rouletteProbs]
      simp only [if_pos hs]
      rfl

/-- witness for C5: a non-flat quality list gets normalized probabilities
summing to 1; a flat one takes the uniform fallback. -/
theorem rouletteProbs_spec_witness :
    (rouletteProbs [1, -2, 3] = some [1 / 6, 1 / 3, 1 / 2] ∧
      ((([1, -2, 3] : List ℚ).map (fun q => |q|)).map
        (fun x => x / (([1, -2, 3] : List ℚ).map (fun q => |q|)).sum)).sum = 1) ∧
    rouletteProbs [0, 0] = none ∧
    (rng0.choiceIdx 1 (rouletteProbs [0, 0])).1 = rng0.nats rng0.n % 1 := by
  refine ⟨⟨?_, ((rouletteProbs_spec [1, -2, 3]).1 (by norm_num)).2⟩,
    ((rouletteProbs_spec [0, 0]).2 (by norm_num)).1,
    ((rouletteProbs_spec [0, 0]).2 (by norm_num)).2 rng0 [(0, 0)]⟩
  rw [((rouletteProbs_spec [1, -2, 3]).1 (by norm_num)).1]
  norm_num

/-- C7: running on `f` with `minimize = true` is the very same run as on the
pointwise negation of `f` with `minimize = false`: the internal fitness is
`-f` in both cases, so every evaluation, comparison and snapshot agrees. -/
theorem minimize_negation_equiv (objFunc : List ℚ → ℚ) (space : List (List ℚ))
    (nBees : Nat) (nWorkers : Option Nat) (nScouts maxIter : Nat) (limit step : ℚ)
    (g : Rng) :
    beeSearch objFunc space true nBees nWorkers nScouts maxIter limit step g =
      beeSearch (fun v => -(objFunc v)) space false nBees nWorkers nScouts maxIter limit
        step g := by
  show beeSearchWith (fun v => -1 * objFunc v) space nBees nWorkers nScouts maxIter limit
      step g = beeSearchWith (fun v => -(objFunc v)) space nBees nWorkers nScouts maxIter
      limit step g
  exact congrArg (fun fit => beeSearchWith fit space nBees nWorkers nScouts maxIter limit
    step g) (funext fun v => by ring)

/-- C8: a food source whose quality is already set dances from the cache:
the returned pair is the stored food and quality, the evaluation function is
invoked zero times, and the result does not depend on the evaluation
function at all. -/
theorem dance_cached (f : Food) (q : ℚ) (hq : f.quality = some q)
    (evalFn evalFn2 : List ℚ → ℚ) :
    f.dance evalFn = (f, q, 0) ∧ f.dance evalFn = f.dance evalFn2 := by
  constructor <;> simp [Food.dance, hq]

/-- witness for C8 on a cached food and two different evaluation functions. -/
theorem dance_cached_witness :
    (Food.mk [1] (some 5) 3).dance (fun _ => 7) = (Food.mk [1] (some 5) 3, 5, 0) ∧
    (Food.mk [1] (some 5) 3).dance (fun _ => 7) =
      (Food.mk [1] (some 5) 3).dance (fun _ => 9) :=
  dance_cached (Food.mk [1] (some 5) 3) 5 rfl (fun _ => 7) (fun _ => 9)

/-- C9: the pseudo-random source is the only ambient state: two runs of
`bee_search` with identical configuration and identical generator state
produce identical snapshot sequences. -/
theorem beeSearch_deterministic (objFunc : List ℚ → ℚ) (space : List (List ℚ))
    (minimize : Bool) (nBees : Nat) (nWorkers : Option Nat) (nScouts maxIter : Nat)
    (limit step : ℚ) (g1 g2 : Rng) (hnats : g1.nats = g2.nats)
    (hreals : g1.reals = g2.reals) (hn : g1.n = g2.n) (hr : g1.r = g2.r) :
    beeSearch objFunc space minimize nBees nWorkers nScouts maxIter limit step g1 =
      beeSearch objFunc space minimize nBees nWorkers nScouts maxIter limit step g2 := by
  cases g1
  cases g2
  simp only [] at hnats hreals hn hr
  subst hnats
  subst hreals
  subst hn
  subst hr
  rfl

/-- witness for C9 at a concrete configuration and seed. -/
theorem beeSearch_deterministic_witness :
    beeSearch (fun v => v.headD 0) [[0, 0], [1, 1]] false 2 (some 1) 1 2 2 1 rng0 =
      beeSearch (fun v => v.headD 0) [[0, 0], [1, 1]] false 2 (some 1) 1 2 2 1 rng0 :=
  beeSearch_deterministic (fun v => v.headD 0) [[0, 0], [1, 1]] false 2 (some 1) 1 2 2 1
    rng0 rng0 rfl rfl rfl rfl

/-- C1: along any successful run, every yielded best-so-far food has its
quality disclosed and the qualities are monotonically non-decreasing from
one iteration to the next (the tracked best is only ever replaced by a
strictly better evaluation, in the worker and onlooker phases alike). -/
theorem best_quality_monotone (objFunc : List ℚ → ℚ) (space : List (List ℚ))
    (minimize : Bool) (nBees : Nat) (nWorkers : Option Nat) (nScouts maxIter : Nat)
    (limit step : ℚ) (g : Rng) (snaps : List (Nat × Food)) (i : Nat)
    (hok : beeSearch objFunc space minimize nBees nWorkers nScouts maxIter limit step g =
      Except.ok snaps)
    (hi : i + 1 < snaps.length) :
    (((snaps.getD i (0, defaultFood)).2.quality)).isSome ∧
    (((snaps.getD (i + 1) (0, defaultFood)).2.quality)).isSome ∧
    ((snaps.getD i (0, defaultFood)).2.quality).getD 0 ≤
      ((snaps.getD (i + 1) (0, defaultFood)).2.quality).getD 0 := by
  obtain ⟨fitness, lo, hb, st0, g0, hinv, hsnaps⟩ :=
    beeSearch_ok_inv objFunc space minimize nBees nWorkers nScouts maxIter limit step g
      snaps hok
  subst hsnaps
  have hch := runFrom_chain fitness step limit lo hb maxIter 0 st0 g0 hinv
  have hiL : i < (runFrom fitness step limit lo hb 0 maxIter st0 g0).1.length := by omega
  have hi1L : i + 1 < (runFrom fitness step limit lo hb 0 maxIter st0 g0).1.length := hi
  refine ⟨?_, ?_, ?_⟩
  · rw [List.getD_eq_getElem _ _ hiL]
    exact hch.2 _ (List.getElem_mem hiL)
  · rw [List.getD_eq_getElem _ _ hi1L]
    exact hch.2 _ (List.getElem_mem hi1L)
  · have hlen : ((runFrom fitness step limit lo hb 0 maxIter st0 g0).1.map
        (fun p => ((p.2.quality)).getD 0)).length =
        (runFrom fitness step limit lo hb 0 maxIter st0 g0).1.length := List.length_map _ _
    have hext := List.chain'_iff_get.1 hch.1 (i + 1) (by
      simp only [List.length_cons, hlen]
      omega)
    rw [List.get_cons_succ, List.get_cons_succ] at hext
    simp only [List.get_eq_getElem, List.getElem_map] at hext
    rw [List.getD_eq_getElem _ _ hiL, List.getD_eq_getElem _ _ hi1L]
    exact hext

/-- witness for C1 on a concrete two-iteration run. -/
theorem best_quality_monotone_witness :
    ((((beeSearch (fun v => v.headD 0) [[0, 0], [1, 1]] false 2 (some 1) 1 2 2 1
        rng0).toOption.getD []).getD 0 (0, defaultFood)).2.quality).isSome ∧
    ((((beeSearch (fun v => v.headD 0) [[0, 0], [1, 1]] false 2 (some 1) 1 2 2 1
        rng0).toOption.getD []).getD (0 + 1) (0, defaultFood)).2.quality).isSome ∧
    ((((beeSearch (fun v => v.headD 0) [[0, 0], [1, 1]] false 2 (some 1) 1 2 2 1
        rng0).toOption.getD []).getD 0 (0, defaultFood)).2.quality).getD 0 ≤
      ((((beeSearch (fun v => v.headD 0) [[0, 0], [1, 1]] false 2 (some 1) 1 2 2 1
        rng0).toOption.getD []).getD (0 + 1) (0, defaultFood)).2.quality).getD 0 :=
  best_quality_monotone (fun v => v.headD 0) [[0, 0], [1, 1]] false 2 (some 1) 1 2 2 1 rng0
    ((beeSearch (fun v => v.headD 0) [[0, 0], [1, 1]] false 2 (some 1) 1 2 2 1
      rng0).toOption.getD []) 0 (by rfl) (by decide)

/-- C6: at every stable point between phases, every worker holds a food
source, every scout holds none, and the workers are as many as the distinct
active food sources they exploit. -/
theorem stable_role_invariant (fitness : List ℚ → ℚ) (step limit : ℚ) (lo hi : List ℚ)
    (nW nO nS : Nat) (g0 : Rng) (st : SearchState) (g : Rng)
    (hst : Stable fitness step limit lo hi nW nO nS g0 st g) : RoleInv st :=
  roleInv_of_invA st (stable_inv fitness step limit lo hi nW nO nS g0 st g hst).1

/-- witness for C6 at the fresh starting state of a concrete run. -/
theorem stable_role_invariant_witness :
    RoleInv ((beeSearchInit (fun v => v.headD 0) [0, 0] [1, 1] 1 1 1 2 rng0).getD
      (⟨⟨[], [], [], [], 0⟩, rng0⟩)).1 :=
  stable_role_invariant (fun v => v.headD 0) 1 2 [0, 0] [1, 1] 1 1 1 rng0
    ((beeSearchInit (fun v => v.headD 0) [0, 0] [1, 1] 1 1 1 2 rng0).getD
      (⟨⟨[], [], [], [], 0⟩, rng0⟩)).1
    ((beeSearchInit (fun v => v.headD 0) [0, 0] [1, 1] 1 1 1 2 rng0).getD
      (⟨⟨[], [], [], [], 0⟩, rng0⟩)).2
    (Stable.init _ _ (by rfl))

/-- C10: with a positive integer limit, every food source ever stored has a
natural-number quantity at every stable point of the run: deposits only
happen after a non-zero or positive check, so no quantity is ever driven
below zero. -/
theorem quantities_stay_natural (fitness : List ℚ → ℚ) (step limit : ℚ) (lo hi : List ℚ)
    (nW nO nS : Nat) (g0 : Rng) (st : SearchState) (g : Rng) (L : Nat)
    (hL : limit = (L : ℚ)) (_hpos : 0 < L)
    (hst : Stable fitness step limit lo hi nW nO nS g0 st g) (f : Food)
    (hf : f ∈ st.store) :
    0 ≤ f.quantity ∧ ∃ n : Nat, f.quantity = (n : ℚ) := by
  rcases (stable_inv fitness step limit lo hi nW nO nS g0 st g hst).2 ⟨L, hL⟩ f hf
    with ⟨n, hn⟩
  refine ⟨?_, n, hn⟩
  rw [hn]
  exact_mod_cast Nat.zero_le n

/-- witness for C10 at the first stored food of a concrete starting
state. -/
theorem quantities_stay_natural_witness :
    0 ≤ ((((beeSearchInit (fun v => v.headD 0) [0, 0] [1, 1] 1 1 1 2 rng0).getD
      (⟨⟨[], [], [], [], 0⟩, rng0⟩)).1.store.getD 0 defaultFood).quantity) ∧
    ∃ n : Nat, (((beeSearchInit (fun v => v.headD 0) [0, 0] [1, 1] 1 1 1 2 rng0).getD
      (⟨⟨[], [], [], [], 0⟩, rng0⟩)).1.store.getD 0 defaultFood).quantity = (n : ℚ) :=
  by
  refine quantities_stay_natural (fun v => v.headD 0) 1 2 [0, 0] [1, 1] 1 1 1 rng0
    ((beeSearchInit (fun v => v.headD 0) [0, 0] [1, 1] 1 1 1 2 rng0).getD
      (⟨⟨[], [], [], [], 0⟩, rng0⟩)).1
    ((beeSearchInit (fun v => v.headD 0) [0, 0] [1, 1] 1 1 1 2 rng0).getD
      (⟨⟨[], [], [], [], 0⟩, rng0⟩)).2
    2 (by norm_num) (by norm_num) (Stable.init _ _ (by rfl)) _ ?_
  have hlen1 : 0 < ((beeSearchInit (fun v => v.headD 0) [0, 0] [1, 1] 1 1 1 2 rng0).getD
      (⟨⟨[], [], [], [], 0⟩, rng0⟩)).1.store.length := by decide
  rw [List.getD_eq_getElem _ _ hlen1]
  exact List.getElem_mem hlen1

end Bees
